import Mathlib

/-!
Verification of the document-chunking core of cdklabs/cdk-appmod-catalog-blueprints.

Shallow embedding of:
- `chunking_strategies.py` (fixed-pages / token-based / hybrid boundary calculators)
- `strategy_selection.py` (threshold checks and strategy dispatch)
- `aggregation/handler.py` (majority-vote classification, entity deduplication)
- `error_handling.py` (exponential-backoff retry wrapper)
- `pdf-chunking/handler.py` (`_split_and_upload_pdf` page-copy/skip logic)

Loops that may diverge in the source (the hybrid trailing re-split loop and the
fixed-pages walk) are embedded with explicit fuel returning `Option`; `none`
models non-termination of the source loop.
-/

namespace Blueprints

/-! ### chunking_strategies.py : token-based calculator -/

/-- One entry of the list returned by `calculate_chunks_token_based`
(dict with chunk_index / start_page / end_page / page_count / token_count). -/
structure TBBoundary where
  chunk_index : Nat
  start_page : Nat
  end_page : Nat
  page_count : Nat
  token_count : Nat
deriving DecidableEq, Repr

/-- The overlap walk-back loop of `calculate_chunks_token_based` (lines 121-127).
`o` is `overlap_start_page + 1` (shifted by one so the index stays a `Nat`;
the Python loop runs while `overlap_start_page >= current_chunk_start`, i.e.
while `floor < o`).  Returns `(new chunk start, overlap_accumulated)`;
`new chunk start = max 0 (overlap_start_page + 1)` is exactly the final `o`. -/
def tbWalk (all : List Nat) (ovTok floor : Nat) : Nat → Nat → Nat × Nat
  | 0, acc => (0, acc)
  | o + 1, acc =>
    if floor < o + 1 ∧ acc < ovTok then
      tbWalk all ovTok floor o (acc + all.getD o 0)
    else (o + 1, acc)

/-- Loop state of `calculate_chunks_token_based`: accumulated chunk list,
`current_chunk_start`, `current_chunk_tokens`, `chunk_index`. -/
structure TBState where
  chunks : List TBBoundary
  start : Nat
  curTok : Nat
  idx : Nat
deriving Repr

/-- The main `for page_num, page_tokens in enumerate(...)` loop of
`calculate_chunks_token_based` (lines 108-135).  `p` is `page_num`,
`rest` the pages not yet visited. -/
def tbGo (all : List Nat) (maxTok ovTok : Nat) : Nat → List Nat → TBState → TBState
  | _, [], s => s
  | p, t :: rest, s =>
    if maxTok < s.curTok + t ∧ 0 < s.curTok then
      let b : TBBoundary := ⟨s.idx, s.start, p - 1, p - s.start, s.curTok⟩
      let w := tbWalk all ovTok s.start p 0
      tbGo all maxTok ovTok (p + 1) rest ⟨s.chunks ++ [b], w.1, w.2 + t, s.idx + 1⟩
    else
      tbGo all maxTok ovTok (p + 1) rest ⟨s.chunks, s.start, s.curTok + t, s.idx⟩

/-- `calculate_chunks_token_based(tokens_per_page, max_tokens_per_chunk, overlap_tokens)`. -/
def calculate_chunks_token_based (all : List Nat) (maxTok ovTok : Nat) : List TBBoundary :=
  let s := tbGo all maxTok ovTok 0 all ⟨[], 0, 0, 0⟩
  if 0 < s.curTok then
    s.chunks ++ [⟨s.idx, s.start, all.length - 1, all.length - s.start, s.curTok⟩]
  else s.chunks

/-! ### chunking_strategies.py : fixed-pages calculator -/

/-- One entry of the list returned by `calculate_chunks_fixed_pages`. -/
structure FPBoundary where
  chunk_index : Nat
  start_page : Nat
  end_page : Nat
  page_count : Nat
deriving DecidableEq, Repr

/-- The `while current_page < total_pages` loop of `calculate_chunks_fixed_pages`
(lines 54-67), with fuel; `none` models a non-terminating source loop
(which happens when `chunk_size = 0`).  `current - ovPages` on `Nat` is the
source's `max(0, current_page - overlap_pages)`. -/
def fpGo (total chunkSize ovPages : Nat) :
    Nat → Nat → Nat → List FPBoundary → Option (List FPBoundary)
  | 0, current, _, acc => if current < total then none else some acc
  | fuel + 1, current, cIdx, acc =>
    if current < total then
      let startP := if 0 < cIdx then current - ovPages else 0
      let endP := min (current + chunkSize) total - 1
      fpGo total chunkSize ovPages fuel (endP + 1) (cIdx + 1)
        (acc ++ [⟨cIdx, startP, endP, endP + 1 - startP⟩])
    else some acc

/-- `calculate_chunks_fixed_pages(total_pages, chunk_size, overlap_pages)`.
Fuel `total + 1` suffices whenever `chunk_size > 0`. -/
def calculate_chunks_fixed_pages (total chunkSize ovPages : Nat) : Option (List FPBoundary) :=
  fpGo total chunkSize ovPages (total + 1) 0 0 []

/-! ### chunking_strategies.py : hybrid calculator -/

/-- `finalize_reason` values of the hybrid calculator. -/
inductive FinalizeReason where
  | token_limit
  | page_limit
  | final_chunk
deriving DecidableEq, Repr

/-- One entry of the list returned by `calculate_chunks_hybrid`. -/
structure HYBoundary where
  chunk_index : Nat
  start_page : Nat
  end_page : Nat
  page_count : Nat
  token_count : Nat
  finalize_reason : FinalizeReason
deriving DecidableEq, Repr

/-- The overlap walk-back loop of `calculate_chunks_hybrid` (lines 231-236 and
270-275): like `tbWalk` but also counting pages and capped at 10 pages.
Returns `(new chunk start, overlap_accumulated, overlap_pages)`. -/
def hyWalk (all : List Nat) (ovTok floor : Nat) : Nat → Nat → Nat → Nat × Nat × Nat
  | 0, acc, op => (0, acc, op)
  | o + 1, acc, op =>
    if floor < o + 1 ∧ acc < ovTok ∧ op < 10 then
      hyWalk all ovTok floor o (acc + all.getD o 0) (op + 1)
    else (o + 1, acc, op)

/-- Loop state of `calculate_chunks_hybrid`'s main pass. -/
structure HYState where
  chunks : List HYBoundary
  start : Nat
  curTok : Nat
  curPages : Nat
  idx : Nat
deriving Repr

/-- The main `for page_num, page_tokens in enumerate(...)` loop of
`calculate_chunks_hybrid` (lines 201-246). -/
def hyGo (all : List Nat) (target maxPages ovTok : Nat) : Nat → List Nat → HYState → HYState
  | _, [], s => s
  | p, t :: rest, s =>
    if (target < s.curTok + t ∧ 0 < s.curTok) ∨ (maxPages ≤ s.curPages ∧ 0 < s.curPages) then
      let reason :=
        if maxPages ≤ s.curPages then FinalizeReason.page_limit else FinalizeReason.token_limit
      let b : HYBoundary := ⟨s.idx, s.start, p - 1, s.curPages, s.curTok, reason⟩
      let w := hyWalk all ovTok s.start p 0 0
      hyGo all target maxPages ovTok (p + 1) rest
        ⟨s.chunks ++ [b], w.1, w.2.1 + t, w.2.2 + 1, s.idx + 1⟩
    else
      hyGo all target maxPages ovTok (p + 1) rest
        ⟨s.chunks, s.start, s.curTok + t, s.curPages + 1, s.idx⟩

/-- `sum(tokens_per_page[a:b])`. -/
def sumRange (all : List Nat) (a b : Nat) : Nat := ((all.drop a).take (b - a)).sum

/-- The trailing `while current_chunk_pages > max_pages` re-split loop of
`calculate_chunks_hybrid` (lines 251-291), with fuel; `none` models a
non-terminating source loop (reachable when `max_pages ≤ 10`).
Arguments after the fuel: chunk list, `current_chunk_start`,
`current_chunk_tokens`, `current_chunk_pages`, `chunk_index`. -/
def hyResplit (all : List Nat) (maxPages ovTok : Nat) :
    Nat → List HYBoundary → Nat → Nat → Nat → Nat → Option (List HYBoundary)
  | 0, chunks, start, curTok, curPages, idx =>
    if maxPages < curPages then none
    else some (chunks ++ [⟨idx, start, all.length - 1, curPages, curTok, .final_chunk⟩])
  | fuel + 1, chunks, start, curTok, curPages, idx =>
    if maxPages < curPages then
      let splitEnd := start + maxPages - 1
      let splitTok := sumRange all start (splitEnd + 1)
      let b : HYBoundary := ⟨idx, start, splitEnd, maxPages, splitTok, .page_limit⟩
      let w := hyWalk all ovTok start (splitEnd + 1) 0 0
      hyResplit all maxPages ovTok fuel (chunks ++ [b]) w.1
        (sumRange all w.1 all.length) (all.length - w.1) (idx + 1)
    else some (chunks ++ [⟨idx, start, all.length - 1, curPages, curTok, .final_chunk⟩])

/-- `calculate_chunks_hybrid(tokens_per_page, target_tokens, max_pages, overlap_tokens)`.
Fuel `length + 1` suffices for the re-split loop whenever `max_pages > 10`. -/
def calculate_chunks_hybrid (all : List Nat) (target maxPages ovTok : Nat) :
    Option (List HYBoundary) :=
  let s := hyGo all target maxPages ovTok 0 all ⟨[], 0, 0, 0, 0⟩
  if 0 < s.curTok then
    hyResplit all maxPages ovTok (all.length + 1) s.chunks s.start s.curTok s.curPages s.idx
  else some s.chunks

/-! ### strategy_selection.py -/

/-- `check_fixed_pages_threshold(total_pages, page_threshold)` (lines 85-112):
returns `(requires_chunking, page_threshold_exceeded)`. -/
def check_fixed_pages_threshold (totalPages pageThreshold : Nat) : Bool × Bool :=
  let pageThresholdExceeded := decide (pageThreshold < totalPages)
  (pageThresholdExceeded, pageThresholdExceeded)

/-- `check_token_based_threshold(total_tokens, token_threshold)` (lines 115-142). -/
def check_token_based_threshold (totalTokens tokenThreshold : Nat) : Bool × Bool :=
  let tokenThresholdExceeded := decide (tokenThreshold < totalTokens)
  (tokenThresholdExceeded, tokenThresholdExceeded)

/-- `check_hybrid_threshold(total_pages, total_tokens, page_threshold, token_threshold)`
(lines 145-181): returns
`(requires_chunking, page_threshold_exceeded, token_threshold_exceeded)`. -/
def check_hybrid_threshold (totalPages totalTokens pageThreshold tokenThreshold : Nat) :
    Bool × Bool × Bool :=
  let pageThresholdExceeded := decide (pageThreshold < totalPages)
  let tokenThresholdExceeded := decide (tokenThreshold < totalTokens)
  (pageThresholdExceeded || tokenThresholdExceeded,
    pageThresholdExceeded, tokenThresholdExceeded)

/-- The configuration consumed by `select_strategy_and_check_thresholds` after
key normalization (the source reads each key under two casing conventions;
we model the already-looked-up optional values). -/
structure SelectorConfig where
  strategy : Option String
  pageThreshold : Option Nat
  tokenThreshold : Option Nat
deriving DecidableEq, Repr

/-- `StrategySelectionResult` (strategy_selection.py lines 32-82).  The purely
presentational `reason` string is omitted. -/
structure StrategySelectionResult where
  requires_chunking : Bool
  strategy : String
  document_pages : Nat
  document_tokens : Nat
  page_threshold : Nat
  token_threshold : Nat
  page_threshold_exceeded : Bool
  token_threshold_exceeded : Bool
deriving DecidableEq, Repr

/-- `select_strategy_and_check_thresholds(total_pages, total_tokens, config)`
(lines 184-283): defaults are strategy `'hybrid'`, `pageThreshold=100`,
`tokenThreshold=150000`; any strategy string other than `'fixed-pages'` or
`'token-based'` falls into the hybrid branch. -/
def select_strategy_and_check_thresholds (totalPages totalTokens : Nat)
    (config : SelectorConfig) : StrategySelectionResult :=
  let strategy := config.strategy.getD "hybrid"
  let pth := config.pageThreshold.getD 100
  let tth := config.tokenThreshold.getD 150000
  if strategy = "fixed-pages" then
    let c := check_fixed_pages_threshold totalPages pth
    ⟨c.1, strategy, totalPages, totalTokens, pth, tth, c.2, false⟩
  else if strategy = "token-based" then
    let c := check_token_based_threshold totalTokens tth
    ⟨c.1, strategy, totalPages, totalTokens, pth, tth, false, c.2⟩
  else
    let c := check_hybrid_threshold totalPages totalTokens pth tth
    ⟨c.1, strategy, totalPages, totalTokens, pth, tth, c.2.1, c.2.2⟩

/-! ### aggregation/handler.py : data model -/

/-- An entry of a chunk's `entities` list.  `none` in `page` models the absence
of the `'page'` key; `none` in `etype`/`value` models an absent key (the source
also treats the empty string as absent via Python truthiness, captured by
`truthy`). -/
structure Entity where
  etype : Option String
  value : Option String
  page : Option Nat
deriving DecidableEq, Repr

/-- `classificationResult` payload: its `documentClassification` field. -/
structure ClassificationResult where
  documentClassification : Option String
deriving DecidableEq, Repr

/-- `processingResult` payload: its `entities` list (`.get('entities', [])`). -/
structure ProcessingResult where
  entities : List Entity
deriving DecidableEq, Repr

/-- One element of the `chunkResults` input of the aggregation handler.
`error = true` models a truthy `error` field. -/
structure ChunkResult where
  error : Bool
  chunkIndex : Nat
  classificationResult : Option ClassificationResult
  processingResult : Option ProcessingResult
deriving DecidableEq, Repr

/-- Python truthiness of an optional string (`None` and `''` are falsy). -/
def truthy : Option String → Bool
  | none => false
  | some s => !(s == "")

/-! ### aggregation/handler.py : aggregate_classifications (lines 429-495) -/

/-- The vote a single chunk contributes: skipped if the chunk has a truthy
`error`, a missing/falsy `classificationResult`, or a missing/falsy
`documentClassification`. -/
def chunkVote (r : ChunkResult) : Option String :=
  if r.error then none
  else
    match r.classificationResult with
    | none => none
    | some cr =>
      match cr.documentClassification with
      | none => none
      | some c => if c = "" then none else some c

/-- The `classifications` list accumulated by `aggregate_classifications`. -/
def classificationVotes (rs : List ChunkResult) : List String :=
  rs.filterMap chunkVote

/-- `aggregate_classifications(chunk_results)`: majority vote with ties broken
by ascending lexicographic order; confidence is `maxCount / totalVotes`
(modelled in `ℚ`).  Returns `(None, 0.0)` when there are no votes. -/
def aggregate_classifications (rs : List ChunkResult) : Option String × ℚ :=
  let cs := classificationVotes rs
  if cs.isEmpty then (none, 0)
  else
    let maxCount := (cs.map fun c => cs.count c).foldr max 0
    let mostCommon := cs.dedup.filter fun c => cs.count c = maxCount
    match mostCommon.insertionSort (fun a b => a ≤ b) with
    | [] => (none, 0)
    | m :: _ => (some m, (cs.count m : ℚ) / (cs.length : ℚ))

/-! ### aggregation/handler.py : deduplicate_entities (lines 498-556) -/

/-- A kept entity, tagged with its source `chunkIndex`
(`{**entity, 'chunkIndex': chunk_index}`). -/
structure TaggedEntity where
  etype : Option String
  value : Option String
  page : Option Nat
  chunkIndex : Nat
deriving DecidableEq, Repr

/-- The `(type, value)` key used by the `seen_without_page` set. -/
def entKey (e : Entity) : String × String := (e.etype.getD "", e.value.getD "")

/-- The inner `for entity in chunk_entities` loop (lines 530-548).
State: `seen_without_page` (as a list of keys) and the accumulated `entities`. -/
def dedupEnts (ci : Nat) : List Entity → List (String × String) → List TaggedEntity →
    List (String × String) × List TaggedEntity
  | [], seen, acc => (seen, acc)
  | e :: es, seen, acc =>
    if truthy e.etype ∧ truthy e.value then
      let te : TaggedEntity := ⟨e.etype, e.value, e.page, ci⟩
      match e.page with
      | none =>
        if entKey e ∈ seen then dedupEnts ci es seen acc
        else dedupEnts ci es (seen ++ [entKey e]) (acc ++ [te])
      | some _ => dedupEnts ci es seen (acc ++ [te])
    else dedupEnts ci es seen acc

/-- The outer `for result in chunk_results` loop (lines 517-548): skips chunks
with truthy `error` or missing `processingResult`. -/
def dedupChunks : List ChunkResult → List (String × String) → List TaggedEntity →
    List TaggedEntity
  | [], _, acc => acc
  | r :: rs, seen, acc =>
    if r.error then dedupChunks rs seen acc
    else
      match r.processingResult with
      | none => dedupChunks rs seen acc
      | some pr =>
        let sa := dedupEnts r.chunkIndex pr.entities seen acc
        dedupChunks rs sa.1 sa.2

/-- The sort key `(chunkIndex, page-or-0)` (lines 551-554). -/
def entitySortKey (te : TaggedEntity) : Nat × Nat := (te.chunkIndex, te.page.getD 0)

/-- Lexicographic order on the sort key, as used by Python's `sort(key=...)`. -/
def entityLe (a b : TaggedEntity) : Prop :=
  a.chunkIndex < b.chunkIndex ∨
    (a.chunkIndex = b.chunkIndex ∧ a.page.getD 0 ≤ b.page.getD 0)

instance : DecidableRel entityLe := fun a b => by unfold entityLe; infer_instance

instance : IsTotal TaggedEntity entityLe :=
  ⟨fun a b => by unfold entityLe; omega⟩

instance : IsTrans TaggedEntity entityLe :=
  ⟨fun a b c hab hbc => by unfold entityLe at hab hbc ⊢; omega⟩

/-- `deduplicate_entities(chunk_results)`. -/
def deduplicate_entities (rs : List ChunkResult) : List TaggedEntity :=
  (dedupChunks rs [] []).insertionSort entityLe

/-- An entity is processed (not skipped) iff both `type` and `value` are
truthy. -/
def validEntity (e : Entity) : Bool := truthy e.etype && truthy e.value

/-- The dedup key of a tagged entity. -/
def entKeyT (te : TaggedEntity) : String × String :=
  (te.etype.getD "", te.value.getD "")

/-- How many copies of the paged tagged entity `te` a single chunk result
contributes: the multiplicity of the corresponding entity in that chunk's
entity list, when the chunk is non-error, carries a processing result with
the matching chunk index, and the entity is valid. -/
def chunkContrib (te : TaggedEntity) (r : ChunkResult) : Nat :=
  if r.error = false ∧ r.chunkIndex = te.chunkIndex then
    match r.processingResult with
    | some pr =>
      if validEntity ⟨te.etype, te.value, te.page⟩ then
        pr.entities.count ⟨te.etype, te.value, te.page⟩
      else 0
    | none => 0
  else 0

/-- Total multiplicity of the paged tagged entity `te` across the input. -/
def sourcePagedCount (rs : List ChunkResult) (te : TaggedEntity) : Nat :=
  (rs.map (chunkContrib te)).sum

/-- The first valid page-less entity with dedup key `k` in one chunk's entity
list, tagged with that chunk's index. -/
def firstPagelessIn (ci : Nat) (k : String × String) : List Entity → Option TaggedEntity
  | [] => none
  | e :: es =>
    if truthy e.etype ∧ truthy e.value ∧ e.page = none ∧ entKey e = k then
      some ⟨e.etype, e.value, e.page, ci⟩
    else firstPagelessIn ci k es

/-- The first valid page-less entity with dedup key `k` across the chunk
results in iteration order (skipping error chunks and chunks without a
processing result). -/
def firstPageless (k : String × String) : List ChunkResult → Option TaggedEntity
  | [] => none
  | r :: rs =>
    if r.error then firstPageless k rs
    else
      match r.processingResult with
      | none => firstPageless k rs
      | some pr =>
        match firstPagelessIn r.chunkIndex k pr.entities with
        | some te => some te
        | none => firstPageless k rs

/-- Boolean test for "page-less output entity with dedup key `k`". -/
def pagelessKey (k : String × String) (te : TaggedEntity) : Bool :=
  decide (te.page = none ∧ entKeyT te = k)

/-- The deduplication example of the spec: one chunk whose entities are two
identical page-less AMOUNTs and one paged DATE. -/
def dedupExample : List ChunkResult :=
  [⟨false, 0, none,
    some ⟨[⟨some "AMOUNT", some "100", none⟩,
           ⟨some "AMOUNT", some "100", none⟩,
           ⟨some "DATE", some "2024-01-01", some 1⟩]⟩⟩]

/-! ### error_handling.py : retry_with_exponential_backoff (lines 380-446)

The decorated operation is modelled as a map from the 0-based attempt number
to an outcome; an exception is modelled as an error value `ε` together with a
`retryable : ε → Bool` predicate (membership in `retryable_exceptions`).
Durations are modelled in `ℚ`. -/

/-- The un-jittered sleep computed after a retryable failure of 0-based
attempt `attempt`: `min(base_delay * (2 ** attempt), max_delay)`. -/
def backoffDelay (baseDelay maxDelay : ℚ) (attempt : Nat) : ℚ :=
  min (baseDelay * 2 ^ attempt) maxDelay

/-- The jitter multiplier `0.5 + random.random()` applied when `jitter=True`;
`r` is the value returned by `random.random()` (which lies in `[0, 1)`). -/
def jitterFactor (r : ℚ) : ℚ := 1 / 2 + r

/-- The `for attempt in range(max_retries + 1)` loop of the retry wrapper,
started at attempt `attempt`.  Returns the final outcome, the total number of
invocations of the operation, and the list of (un-jittered) sleeps performed,
in order.  A non-retryable error propagates immediately (the `except` clause
only catches `retryable_exceptions`). -/
def retryGo (retryable : ε → Bool) (op : Nat → Except ε α) (baseDelay maxDelay : ℚ)
    (maxRetries : Nat) (attempt : Nat) : Except ε α × Nat × List ℚ :=
  match op attempt with
  | .ok v => (.ok v, attempt + 1, [])
  | .error e =>
    if retryable e then
      if h : attempt < maxRetries then
        let d := backoffDelay baseDelay maxDelay attempt
        let rec2 := retryGo retryable op baseDelay maxDelay maxRetries (attempt + 1)
        (rec2.1, rec2.2.1, d :: rec2.2.2)
      else (.error e, attempt + 1, [])
    else (.error e, attempt + 1, [])
termination_by maxRetries - attempt

/-- `retry_with_exponential_backoff(max_retries, base_delay, max_delay, ...)`
applied to an operation: runs the attempt loop from attempt 0. -/
def retry_with_exponential_backoff (retryable : ε → Bool) (op : Nat → Except ε α)
    (baseDelay maxDelay : ℚ) (maxRetries : Nat) : Except ε α × Nat × List ℚ :=
  retryGo retryable op baseDelay maxDelay maxRetries 0

/-! ### pdf-chunking/handler.py : _split_and_upload_pdf (lines 704-820)

Physical page copying is modelled by a predicate `copyOk : Nat → Bool`
(whether `pdf_writer.add_page(pdf_reader.pages[p])` succeeds); S3 uploads and
the `pdf_writer.write` step are modelled as succeeding, since the claim under
verification concerns only per-page failures and the zero-artifact check. -/

/-- The boundary metadata consumed by the splitter (the fields of each
`chunk_meta` dict that the splitter reads). -/
structure ChunkMeta where
  chunk_index : Nat
  start_page : Nat
  end_page : Nat
deriving DecidableEq, Repr

/-- A produced chunk artifact; `pageCount` is `pages_added`, the number of
successfully copied pages. -/
structure ChunkArtifact where
  chunkIndex : Nat
  startPage : Nat
  endPage : Nat
  pageCount : Nat
deriving DecidableEq, Repr

/-- The structured error raised on a corrupted document: `error_type` string
plus the `corrupted_pages` detail list. -/
structure SplitFailure where
  error_type : String
  corrupted_pages : List Nat
deriving DecidableEq, Repr

/-- The inner `for page_num in range(start_page, end_page + 1)` loop
(lines 726-738): returns `(pages_added, corrupted pages in order)`.  A page
index beyond the document is silently skipped; a failing copy is caught,
recorded and skipped. -/
def copyPages (numPages : Nat) (copyOk : Nat → Bool) : List Nat → Nat × List Nat
  | [] => (0, [])
  | p :: ps =>
    let w := copyPages numPages copyOk ps
    if p < numPages then
      if copyOk p then (w.1 + 1, w.2) else (w.1, p :: w.2)
    else w

/-- The outer `for chunk_meta in chunks_metadata` loop (lines 708-798):
accumulates artifacts and the document-wide `corrupted_pages` list; a chunk
whose `pages_added` is zero is skipped and produces no artifact. -/
def splitGo (numPages : Nat) (copyOk : Nat → Bool) : List ChunkMeta →
    List ChunkArtifact × List Nat
  | [] => ([], [])
  | b :: bs =>
    let c := copyPages numPages copyOk (List.range' b.start_page (b.end_page + 1 - b.start_page))
    let r := splitGo numPages copyOk bs
    if c.1 = 0 then (r.1, c.2 ++ r.2)
    else (⟨b.chunk_index, b.start_page, b.end_page, c.1⟩ :: r.1, c.2 ++ r.2)

/-- `_split_and_upload_pdf` final outcome: if no artifact at all was produced,
raise `CorruptedPDFError` (`error_type='CorruptedPDF'`, the taxonomy's fatal
CorruptedFormat kind) carrying the corrupted page list (lines 807-814). -/
def split_and_upload_pdf (numPages : Nat) (copyOk : Nat → Bool) (bnds : List ChunkMeta) :
    Except SplitFailure (List ChunkArtifact) :=
  let r := splitGo numPages copyOk bnds
  if r.1 = [] then .error ⟨"CorruptedPDF", r.2⟩ else .ok r.1

/-! ### specification-level helper predicates -/

/-- The number of pages of a boundary's range that survive copying. -/
def survivorCount (numPages : Nat) (copyOk : Nat → Bool) (b : ChunkMeta) : Nat :=
  (List.range' b.start_page (b.end_page + 1 - b.start_page)).countP
    fun p => p < numPages && copyOk p

/-- The corrupted pages a boundary contributes (in range, but failing copy). -/
def corruptedOf (numPages : Nat) (copyOk : Nat → Bool) (b : ChunkMeta) : List Nat :=
  (List.range' b.start_page (b.end_page + 1 - b.start_page)).filter
    fun p => p < numPages && !copyOk p

/-- Page ranges `(startPage, endPage)` of the three boundary types. -/
def tbRange (b : TBBoundary) : Nat × Nat := (b.start_page, b.end_page)

/-- Page range of a fixed-pages boundary. -/
def fpRange (b : FPBoundary) : Nat × Nat := (b.start_page, b.end_page)

/-- Page range of a hybrid boundary. -/
def hyRange (b : HYBoundary) : Nat × Nat := (b.start_page, b.end_page)

/-- Every page `q < n` lies in some produced range (inclusive ends). -/
def rangesCover (rs : List (Nat × Nat)) (n : Nat) : Prop :=
  ∀ q, q < n → ∃ r ∈ rs, r.1 ≤ q ∧ q ≤ r.2

/-- Relation between the ranges of consecutive boundaries: the next range
starts no later than one past the previous end (no page gap) and strictly
extends the right end. -/
def boundaryRel (r r2 : Nat × Nat) : Prop :=
  r2.1 ≤ r.2 + 1 ∧ r.2 < r2.2

instance : DecidableRel boundaryRel := fun r r2 => by
  unfold boundaryRel; infer_instance

/-- Any page shared between two chunks lies inside the later chunk's overlap
with its immediately preceding chunk (it is at most that chunk's end):
duplicated pages occur only as overlap with the previous chunk. -/
def overlapConfined (rs : List (Nat × Nat)) : Prop :=
  ∀ i j q, i < j → j < rs.length →
    (rs.getD i (0, 0)).1 ≤ q → q ≤ (rs.getD i (0, 0)).2 →
    (rs.getD j (0, 0)).1 ≤ q → q ≤ (rs.getD j (0, 0)).2 →
    q ≤ (rs.getD (j - 1) (0, 0)).2

/-- Relation between consecutive hybrid boundaries: no page gap, strictly
advancing end, and page overlap (`end + 1 - next start`) at most 10. -/
def hyRel (b b2 : HYBoundary) : Prop :=
  b2.start_page ≤ b.end_page + 1 ∧ b.end_page < b2.end_page ∧
    b.end_page + 1 - b2.start_page ≤ 10

instance : DecidableRel hyRel := fun b b2 => by
  unfold hyRel; infer_instance

/-- The C3 coverage bundle for a boundary list, given its page ranges and its
chunk indices over a document of `n` pages: at least one boundary, chunk
indices 0,1,2,..., first boundary starting at page 0, last boundary ending at
the last page, gapless chained ranges, full coverage, and page duplication
confined to the overlap with the previous chunk. -/
def coverageSpec (rs : List (Nat × Nat)) (idxs : List Nat) (n : Nat) : Prop :=
  rs ≠ [] ∧
  idxs = List.range idxs.length ∧
  (rs.headD (0, 0)).1 = 0 ∧
  (rs.getLastD (0, 0)).2 = n - 1 ∧
  List.Chain' boundaryRel rs ∧
  rangesCover rs n ∧
  overlapConfined rs

/-- The C3 claim for all three calculators at a given configuration. -/
def calculatorsCoverageClaim (fp : Option (List FPBoundary)) (tb : List TBBoundary)
    (hy : Option (List HYBoundary)) (totalFP nTB nHY : Nat) : Prop :=
  (∃ bs, fp = some bs ∧
    coverageSpec (bs.map fpRange) (bs.map fun b => b.chunk_index) totalFP) ∧
  coverageSpec (tb.map tbRange) (tb.map fun b => b.chunk_index) nTB ∧
  (∃ bs, hy = some bs ∧
    coverageSpec (bs.map hyRange) (bs.map fun b => b.chunk_index) nHY)

/-- Invariant tying the hybrid main-loop state to the current page position
`p`: produced boundaries respect the page cap and form a gapless chain with
overlap at most 10; chunk indices are 0,1,...; the first boundary starts at
page 0; the running chunk starts at most one past the last emitted end and
within 10 pages of it; `current_chunk_pages` counts the pages from the chunk
start to `p` and stays at most the page cap. -/
def hyInv (maxPages p : Nat) (s : HYState) : Prop :=
  (∀ b ∈ s.chunks, b.page_count ≤ maxPages) ∧
  List.Chain' hyRel s.chunks ∧
  s.chunks.map (fun b => b.chunk_index) = List.range s.chunks.length ∧
  s.idx = s.chunks.length ∧
  (s.chunks = [] → s.start = 0) ∧
  (∀ b0, s.chunks.head? = some b0 → b0.start_page = 0) ∧
  (∀ bl, s.chunks.getLast? = some bl →
    s.start ≤ bl.end_page + 1 ∧ bl.end_page + 1 - s.start ≤ 10 ∧
    bl.end_page + 2 ≤ p) ∧
  s.curPages = p - s.start ∧
  s.start ≤ p ∧
  s.curPages ≤ maxPages ∧
  (0 < s.curTok → 0 < s.curPages)

/-- Invariant tying the token-based main-loop state to the current page
position `p`: produced boundaries form a gapless chain with strictly
increasing ends, chunk indices are 0,1,..., the first boundary starts at page
0, and the running chunk start stays consistent with `p`. -/
def tbInv (p : Nat) (s : TBState) : Prop :=
  List.Chain' boundaryRel (s.chunks.map tbRange) ∧
  s.chunks.map (fun b => b.chunk_index) = List.range s.chunks.length ∧
  s.idx = s.chunks.length ∧
  (s.chunks = [] → s.start = 0) ∧
  (∀ b0, s.chunks.head? = some b0 → b0.start_page = 0) ∧
  (∀ bl, s.chunks.getLast? = some bl →
    s.start ≤ bl.end_page + 1 ∧ bl.end_page + 2 ≤ p) ∧
  s.start ≤ p ∧
  (0 < s.curTok → s.start < p) ∧
  (s.curTok = 0 → s.start = p)

/-! ## General helper lemmas -/

theorem le_foldrMax (l : List Nat) : ∀ x ∈ l, x ≤ l.foldr max 0 := by
  induction l with
  | nil => simp
  | cons a l ih =>
    intro x hx
    rcases List.mem_cons.mp hx with h | h
    · subst h; exact le_max_left _ _
    · exact le_trans (ih x h) (le_max_right _ _)

theorem foldrMax_mem (l : List Nat) : l.foldr max 0 = 0 ∨ l.foldr max 0 ∈ l := by
  induction l with
  | nil => simp
  | cons a l ih =>
    simp only [List.foldr_cons]
    rcases le_total a (l.foldr max 0) with h | h
    · rw [max_eq_right h]
      rcases ih with h0 | hm
      · exact Or.inl h0
      · exact Or.inr (List.mem_cons_of_mem _ hm)
    · rw [max_eq_left h]
      exact Or.inr (List.mem_cons_self _ _)

/-! ## C6 : strict threshold comparisons in strategy selection -/

/-- C6: strategy selection uses strict comparisons: equality with a threshold
does not trigger chunking, one page/token above it does; under fixed-pages the
token threshold is never evaluated; under hybrid, requires_chunking is the OR
of the two strict comparisons. -/
theorem strategy_selection_strict_thresholds (tp tt pth tth : Nat) :
    (check_fixed_pages_threshold pth pth).1 = false ∧
    (check_fixed_pages_threshold (pth + 1) pth).1 = true ∧
    (check_token_based_threshold tth tth).1 = false ∧
    (check_token_based_threshold (tth + 1) tth).1 = true ∧
    (select_strategy_and_check_thresholds tp tt
      ⟨some "fixed-pages", some pth, some tth⟩).token_threshold_exceeded = false ∧
    (check_hybrid_threshold tp tt pth tth).1 =
      (decide (pth < tp) || decide (tth < tt)) ∧
    (select_strategy_and_check_thresholds tp tt
      ⟨some "hybrid", some pth, some tth⟩).requires_chunking =
      (decide (pth < tp) || decide (tth < tt)) := by
  refine ⟨?_, ?_, ?_, ?_, ?_, ?_, ?_⟩ <;>
    simp [check_fixed_pages_threshold, check_token_based_threshold,
      check_hybrid_threshold, select_strategy_and_check_thresholds]

/-! ## C10 : unrecognized strategy strings fall back to hybrid -/

/-- C10: any strategy string other than 'fixed-pages' and 'token-based' takes
the hybrid branch: both thresholds are evaluated, requires_chunking is their
OR, and the unrecognized string is reported back as the strategy. -/
theorem unrecognized_strategy_uses_hybrid (s : String) (tp tt pth tth : Nat)
    (hf : s ≠ "fixed-pages") (ht : s ≠ "token-based") :
    (select_strategy_and_check_thresholds tp tt
      ⟨some s, some pth, some tth⟩).strategy = s ∧
    (select_strategy_and_check_thresholds tp tt
      ⟨some s, some pth, some tth⟩).requires_chunking =
      (decide (pth < tp) || decide (tth < tt)) ∧
    (select_strategy_and_check_thresholds tp tt
      ⟨some s, some pth, some tth⟩).page_threshold_exceeded = decide (pth < tp) ∧
    (select_strategy_and_check_thresholds tp tt
      ⟨some s, some pth, some tth⟩).token_threshold_exceeded = decide (tth < tt) := by
  refine ⟨?_, ?_, ?_, ?_⟩ <;>
    simp [select_strategy_and_check_thresholds, check_hybrid_threshold, hf, ht]

/-- Witness for C10 at a concrete typo strategy string. -/
theorem unrecognized_strategy_uses_hybrid_witness :
    (select_strategy_and_check_thresholds 150 10
      ⟨some "hybird", some 100, some 150000⟩).strategy = "hybird" ∧
    (select_strategy_and_check_thresholds 150 10
      ⟨some "hybird", some 100, some 150000⟩).requires_chunking = true := by
  have h := unrecognized_strategy_uses_hybrid "hybird" 150 10 100 150000
    (by decide) (by decide)
  refine ⟨h.1, ?_⟩
  rw [h.2.1]; decide

/-! ## C8 : splitter per-page failure handling -/

theorem copyPages_eq (numPages : Nat) (copyOk : Nat → Bool) (ps : List Nat) :
    copyPages numPages copyOk ps =
      (ps.countP (fun p => decide (p < numPages) && copyOk p),
       ps.filter (fun p => decide (p < numPages) && !copyOk p)) := by
  induction ps with
  | nil => rfl
  | cons p ps ih =>
    by_cases h1 : p < numPages <;> by_cases h2 : copyOk p <;>
      simp [copyPages, ih, h1, h2, List.countP_cons, List.filter_cons]

/-- C8: per-page copy failures are skipped (the artifact keeps the surviving
page count); a boundary with zero surviving pages yields no artifact; zero
artifacts overall raise the fatal corrupted-format error carrying the
corrupted page list; otherwise the artifacts are returned. -/
theorem split_page_failure_handling (numPages : Nat) (copyOk : Nat → Bool)
    (bnds : List ChunkMeta) :
    (splitGo numPages copyOk bnds).1 =
      bnds.filterMap (fun b =>
        if survivorCount numPages copyOk b = 0 then none
        else some ⟨b.chunk_index, b.start_page, b.end_page,
          survivorCount numPages copyOk b⟩) ∧
    (splitGo numPages copyOk bnds).2 = (bnds.map (corruptedOf numPages copyOk)).flatten ∧
    ((splitGo numPages copyOk bnds).1 = [] →
      split_and_upload_pdf numPages copyOk bnds =
        .error ⟨"CorruptedPDF", (bnds.map (corruptedOf numPages copyOk)).flatten⟩) ∧
    ((splitGo numPages copyOk bnds).1 ≠ [] →
      split_and_upload_pdf numPages copyOk bnds = .ok (splitGo numPages copyOk bnds).1) := by
  have main : ∀ bs : List ChunkMeta,
      (splitGo numPages copyOk bs).1 =
        bs.filterMap (fun b =>
          if survivorCount numPages copyOk b = 0 then none
          else some ⟨b.chunk_index, b.start_page, b.end_page,
            survivorCount numPages copyOk b⟩) ∧
      (splitGo numPages copyOk bs).2 = (bs.map (corruptedOf numPages copyOk)).flatten := by
    intro bs
    induction bs with
    | nil => exact ⟨rfl, rfl⟩
    | cons b bs ih =>
      have hc : copyPages numPages copyOk
          (List.range' b.start_page (b.end_page + 1 - b.start_page)) =
          (survivorCount numPages copyOk b, corruptedOf numPages copyOk b) := by
        rw [copyPages_eq]; rfl
      simp only [splitGo, hc, List.filterMap_cons, List.map_cons, List.flatten_cons]
      by_cases h : survivorCount numPages copyOk b = 0
      · simp only [h, if_pos rfl, ite_true]
        exact ⟨ih.1, by rw [ih.2]⟩
      · simp only [if_neg h]
        exact ⟨by rw [ih.1], by rw [ih.2]⟩
  refine ⟨(main bnds).1, (main bnds).2, ?_, ?_⟩
  · intro h
    rw [show split_and_upload_pdf numPages copyOk bnds =
      (if (splitGo numPages copyOk bnds).1 = [] then
        .error ⟨"CorruptedPDF", (splitGo numPages copyOk bnds).2⟩
      else .ok (splitGo numPages copyOk bnds).1) from rfl]
    rw [if_pos h, (main bnds).2]
  · intro h
    rw [show split_and_upload_pdf numPages copyOk bnds =
      (if (splitGo numPages copyOk bnds).1 = [] then
        .error ⟨"CorruptedPDF", (splitGo numPages copyOk bnds).2⟩
      else .ok (splitGo numPages copyOk bnds).1) from rfl]
    rw [if_neg h]

/-- Witness for C8: one all-corrupted document (fatal error with the corrupted
page list) and one document where page 1 fails but page 0 survives. -/
theorem split_page_failure_handling_witness :
    split_and_upload_pdf 2 (fun _ => false) [⟨0, 0, 1⟩] =
      .error ⟨"CorruptedPDF", [0, 1]⟩ ∧
    split_and_upload_pdf 2 (fun p => p == 0) [⟨0, 0, 1⟩, ⟨1, 1, 1⟩] =
      .ok [⟨0, 0, 1, 1⟩] := by
  constructor
  · have h := (split_page_failure_handling 2 (fun _ => false) [⟨0, 0, 1⟩]).2.2.1
      (by decide)
    rw [h]; rfl
  · have h := (split_page_failure_handling 2 (fun p => p == 0)
      [⟨0, 0, 1⟩, ⟨1, 1, 1⟩]).2.2.2 (by decide)
    rw [h]; rfl

/-! ## C5 : retry wrapper behaviour -/

theorem retryGo_sleep_eq {ε α : Type} (retryable : ε → Bool) (op : Nat → Except ε α)
    (b m : ℚ) (maxR : Nat) :
    ∀ (n a : Nat), maxR - a ≤ n →
      ∀ k, k < (retryGo retryable op b m maxR a).2.2.length →
        (retryGo retryable op b m maxR a).2.2.getD k 0 = backoffDelay b m (a + k) := by
  intro n
  induction n with
  | zero =>
    intro a ha k hk
    rcases hop : op a with e | v
    · rw [retryGo.eq_def, hop] at hk
      have hnr : ¬ a < maxR := by omega
      by_cases hr : retryable e <;> simp [hr, hnr] at hk
    · rw [retryGo.eq_def, hop] at hk
      simp at hk
  | succ n ih =>
    intro a ha k hk
    rcases hop : op a with e | v
    · rw [retryGo.eq_def, hop] at hk ⊢
      by_cases hr : retryable e
      · by_cases hlt : a < maxR
        · simp only [hr, if_true, dif_pos hlt] at hk ⊢
          match k with
          | 0 => simp
          | k + 1 =>
            simp only [List.length_cons] at hk
            have hk2 : k < (retryGo retryable op b m maxR (a + 1)).2.2.length := by
              omega
            have := ih (a + 1) (by omega) k hk2
            simp only [List.getD_cons_succ]
            rw [show (a + (k + 1)) = (a + 1 + k) by omega]
            exact this
        · simp [hr, dif_neg hlt] at hk
      · simp [hr] at hk
    · rw [retryGo.eq_def, hop] at hk
      simp at hk

/-- C5 (amended): with `maxRetries = 2`, two retryable failures followed by a
success return the success after exactly 3 invocations, sleeping the backoff
delays of attempts 0 and 1; a non-retryable failure propagates after exactly
one invocation; the sleep after failing 0-based attempt `k` is
`min(baseDelay * 2^k, maxDelay)`; and the optional jitter multiplier
`0.5 + random()` lies in `[0.5, 1.5)` (not `[0.5, 1.0)` as claimed). -/
theorem retry_with_exponential_backoff_spec {ε α : Type} (retryable : ε → Bool)
    (baseDelay maxDelay : ℚ) :
    (∀ (op : Nat → Except ε α) (v : α) (e0 e1 : ε),
      op 0 = .error e0 → op 1 = .error e1 → op 2 = .ok v →
      retryable e0 = true → retryable e1 = true →
      retry_with_exponential_backoff retryable op baseDelay maxDelay 2 =
        (.ok v, 3, [backoffDelay baseDelay maxDelay 0, backoffDelay baseDelay maxDelay 1])) ∧
    (∀ (op : Nat → Except ε α) (e0 : ε) (maxRetries : Nat),
      op 0 = .error e0 → retryable e0 = false →
      retry_with_exponential_backoff retryable op baseDelay maxDelay maxRetries =
        (.error e0, 1, [])) ∧
    (∀ (op : Nat → Except ε α) (maxRetries k : Nat),
      k < (retry_with_exponential_backoff retryable op
        baseDelay maxDelay maxRetries).2.2.length →
      (retry_with_exponential_backoff retryable op baseDelay maxDelay
        maxRetries).2.2.getD k 0 = backoffDelay baseDelay maxDelay k) ∧
    (∀ r : ℚ, 0 ≤ r → r < 1 →
      1 / 2 ≤ jitterFactor r ∧ jitterFactor r < 3 / 2) := by
  refine ⟨?_, ?_, ?_, ?_⟩
  · intro op v e0 e1 h0 h1 h2 hr0 hr1
    rw [retry_with_exponential_backoff, retryGo.eq_def, h0]
    simp only [hr0, if_true, dif_pos (show (0 : Nat) < 2 from by omega)]
    rw [retryGo.eq_def, h1]
    simp only [hr1, if_true, dif_pos (show (1 : Nat) < 2 from by omega)]
    rw [retryGo.eq_def, h2]
  · intro op e0 maxRetries h0 hr0
    rw [retry_with_exponential_backoff, retryGo.eq_def, h0]
    simp [hr0]
  · intro op maxRetries k hk
    have h := retryGo_sleep_eq retryable op baseDelay maxDelay maxRetries maxRetries 0
      (by omega) k hk
    simpa using h
  · intro r h0 h1
    unfold jitterFactor
    constructor <;> linarith

/-- Witness for C5 at concrete operations, delays and jitter value. -/
theorem retry_with_exponential_backoff_spec_witness :
    retry_with_exponential_backoff (fun _ : Unit => true)
        (fun n => if n < 2 then .error () else .ok (7 : Nat)) 1 30 2 =
      (.ok 7, 3, [1, 2]) ∧
    retry_with_exponential_backoff (fun _ : Unit => false)
        (fun n => if n < 2 then .error () else .ok (7 : Nat)) 1 30 5 =
      (.error (), 1, []) ∧
    (1 / 2 : ℚ) ≤ jitterFactor 0 ∧ jitterFactor 0 < 3 / 2 := by
  refine ⟨?_, ?_, ?_⟩
  · have h := (retry_with_exponential_backoff_spec (fun _ : Unit => true)
      (1 : ℚ) 30).1 (fun n => if n < 2 then .error () else .ok (7 : Nat)) 7 () ()
      rfl rfl rfl rfl rfl
    rw [h]
    norm_num [backoffDelay]
  · exact (retry_with_exponential_backoff_spec (fun _ : Unit => false)
      (1 : ℚ) 30).2.1 (fun n => if n < 2 then .error () else .ok (7 : Nat)) () 5
      rfl rfl
  · exact (retry_with_exponential_backoff_spec (fun _ : Unit => true)
      (α := Nat) (1 : ℚ) 30).2.2.2 0 (by norm_num) (by norm_num)

/-- C5 counterexample: the jitter multiplier `0.5 + random()` applied by the
source is not always below 1: at `random() = 1/2 ∈ [0, 1)` it equals 1,
refuting the claimed jitter factor range `[0.5, 1.0)`. -/
theorem retry_jitter_range_counterexample :
    (0 : ℚ) ≤ 1 / 2 ∧ (1 / 2 : ℚ) < 1 ∧ ¬ jitterFactor (1 / 2) < 1 := by
  norm_num [jitterFactor]

/-! ## C1 : token-based boundaries and the token limit -/

theorem tbWalk_zero_ov (all : List Nat) (floor p : Nat) :
    tbWalk all 0 floor p 0 = (p, 0) := by
  cases p <;> simp [tbWalk]

/-- Loop invariant of `tbGo` with `overlap_tokens = 0` and positive page token
counts: already-emitted boundaries respect the limit or span one page, and the
running chunk is either within the limit or consists of the single page before
`p`. -/
theorem tbGo_inv (all : List Nat) (maxTok : Nat) :
    ∀ (rest : List Nat) (p : Nat) (s : TBState),
      (∀ t ∈ rest, 0 < t) →
      (∀ b ∈ s.chunks, b.token_count ≤ maxTok ∨ b.start_page = b.end_page) →
      (s.curTok ≤ maxTok ∨ (0 < s.curTok ∧ s.start + 1 = p)) →
      (s.curTok = 0 → s.start = p) →
      (0 < s.curTok → s.start < p) →
      (∀ b ∈ (tbGo all maxTok 0 p rest s).chunks,
        b.token_count ≤ maxTok ∨ b.start_page = b.end_page) ∧
      ((tbGo all maxTok 0 p rest s).curTok ≤ maxTok ∨
        (0 < (tbGo all maxTok 0 p rest s).curTok ∧
          (tbGo all maxTok 0 p rest s).start + 1 = p + rest.length)) ∧
      ((tbGo all maxTok 0 p rest s).curTok = 0 →
        (tbGo all maxTok 0 p rest s).start = p + rest.length) ∧
      (0 < (tbGo all maxTok 0 p rest s).curTok →
        (tbGo all maxTok 0 p rest s).start < p + rest.length) := by
  intro rest
  induction rest with
  | nil =>
    intro p s hpos h1 h2 h3 h4
    simpa [tbGo] using ⟨h1, h2, h3, h4⟩
  | cons t rest ih =>
    intro p s hpos h1 h2 h3 h4
    have hpt : 0 < t := hpos t (List.mem_cons_self _ _)
    have hposr : ∀ x ∈ rest, 0 < x := fun x hx => hpos x (List.mem_cons_of_mem _ hx)
    have hlen : p + 1 + rest.length = p + (t :: rest).length := by
      simp only [List.length_cons]; omega
    rw [tbGo]
    by_cases hc : maxTok < s.curTok + t ∧ 0 < s.curTok
    · rw [if_pos hc]
      simp only [tbWalk_zero_ov]
      have hch : ∀ b ∈ s.chunks ++ [⟨s.idx, s.start, p - 1, p - s.start, s.curTok⟩],
          b.token_count ≤ maxTok ∨ b.start_page = b.end_page := by
        intro b hb
        rcases List.mem_append.mp hb with hb | hb
        · exact h1 b hb
        · simp only [List.mem_singleton] at hb
          subst hb
          rcases h2 with hle | ⟨hpos', heq⟩
          · exact Or.inl hle
          · refine Or.inr ?_
            show s.start = p - 1
            omega
      have h2n : 0 + t ≤ maxTok ∨ (0 < 0 + t ∧ p + 1 = p + 1) := Or.inr ⟨by omega, rfl⟩
      have h3n : 0 + t = 0 → p = p + 1 := by intro h; omega
      have h4n : 0 < 0 + t → p < p + 1 := by intro _; omega
      have hnext := ih (p + 1)
        ⟨s.chunks ++ [⟨s.idx, s.start, p - 1, p - s.start, s.curTok⟩], p, 0 + t, s.idx + 1⟩
        hposr hch h2n h3n h4n
      rw [hlen] at hnext
      exact hnext
    · rw [if_neg hc]
      have hstart_le : s.start ≤ p := by
        rcases Nat.eq_zero_or_pos s.curTok with h0 | h0
        · exact Nat.le_of_eq (h3 h0)
        · exact Nat.le_of_lt (h4 h0)
      have h2n : s.curTok + t ≤ maxTok ∨ (0 < s.curTok + t ∧ s.start + 1 = p + 1) := by
        by_cases hle : s.curTok + t ≤ maxTok
        · exact Or.inl hle
        · have h0 : s.curTok = 0 := by
            by_cases hp : 0 < s.curTok
            · exact absurd ⟨by omega, hp⟩ hc
            · omega
          have hsp := h3 h0
          exact Or.inr ⟨by omega, by omega⟩
      have h3n : s.curTok + t = 0 → s.start = p + 1 := by intro h; omega
      have h4n : 0 < s.curTok + t → s.start < p + 1 := by intro _; omega
      have hnext := ih (p + 1) ⟨s.chunks, s.start, s.curTok + t, s.idx⟩ hposr h1 h2n h3n h4n
      rw [hlen] at hnext
      exact hnext

/-- C1 (amended): with `overlapTokens = 0` and every page carrying a positive
token count, every boundary produced by the token-based calculator either has
`tokenCount ≤ maxTokensPerChunk` or spans exactly one page. -/
theorem token_based_boundaries_respect_limit (all : List Nat) (maxTok : Nat)
    (hmax : 0 < maxTok) (hpos : ∀ t ∈ all, 0 < t) :
    ∀ b ∈ calculate_chunks_token_based all maxTok 0,
      b.token_count ≤ maxTok ∨ b.start_page = b.end_page := by
  have h := tbGo_inv all maxTok all 0 ⟨[], 0, 0, 0⟩ hpos (by simp)
    (Or.inl (Nat.zero_le _)) (fun _ => rfl) (by simp)
  intro b hb
  rw [calculate_chunks_token_based] at hb
  by_cases h0 : 0 < (tbGo all maxTok 0 0 all ⟨[], 0, 0, 0⟩).curTok
  · simp only [if_pos h0] at hb
    rcases List.mem_append.mp hb with hb | hb
    · exact h.1 b hb
    · simp only [List.mem_singleton] at hb
      subst hb
      rcases h.2.1 with hle | ⟨hp, heq⟩
      · exact Or.inl hle
      · refine Or.inr ?_
        simp at heq ⊢
        omega
  · simp only [if_neg h0] at hb
    exact h.1 b hb

/-- Witness for C1's amended statement on a concrete document. -/
theorem token_based_boundaries_respect_limit_witness :
    0 < 7 ∧ (∀ t ∈ [5, 5, 5], 0 < t) ∧
    ∀ b ∈ calculate_chunks_token_based [5, 5, 5] 7 0,
      b.token_count ≤ 7 ∨ b.start_page = b.end_page :=
  ⟨by decide, by decide,
    token_based_boundaries_respect_limit [5, 5, 5] 7 (by decide) (by decide)⟩

/-- C1 counterexample: with `overlapTokens = 100` the token-based calculator
emits a boundary whose `token_count` (200, including overlap tokens) exceeds
`maxTokensPerChunk = 150` while spanning two pages — refuting the claim for
arbitrary `overlapTokens ≥ 0`. -/
theorem token_based_limit_counterexample :
    ∃ b ∈ calculate_chunks_token_based [100, 100, 100] 150 100,
      150 < b.token_count ∧ b.start_page ≠ b.end_page ∧ b.page_count = 2 := by
  decide

/-! ## C4 : majority-vote classification -/

theorem classificationVotes_all_error (rs : List ChunkResult)
    (h : ∀ r ∈ rs, r.error = true) : classificationVotes rs = [] := by
  induction rs with
  | nil => rfl
  | cons r rs ih =>
    have hr := h r (List.mem_cons_self _ _)
    rw [classificationVotes, List.filterMap_cons]
    rw [show chunkVote r = none from by rw [chunkVote]; simp [hr]]
    exact ih fun x hx => h x (List.mem_cons_of_mem _ hx)

/-- C4: majority vote considers only non-error chunks' classification values,
picks the maximum-count value breaking ties by ascending lexicographic order,
returns `confidence = maxCount / number of votes considered`, and returns
`(None, 0.0)` on the empty input and on all-error input (zero votes). -/
theorem aggregate_classifications_spec :
    aggregate_classifications [] = (none, 0) ∧
    (∀ rs : List ChunkResult, (∀ r ∈ rs, r.error = true) →
      aggregate_classifications rs = (none, 0)) ∧
    (∀ rs : List ChunkResult, classificationVotes rs ≠ [] →
      ∃ m, m ∈ classificationVotes rs ∧
        aggregate_classifications rs =
          (some m, ((classificationVotes rs).count m : ℚ) /
            ((classificationVotes rs).length : ℚ)) ∧
        (∀ c ∈ classificationVotes rs,
          (classificationVotes rs).count c ≤ (classificationVotes rs).count m) ∧
        (∀ c ∈ classificationVotes rs,
          (classificationVotes rs).count c = (classificationVotes rs).count m →
            m ≤ c)) := by
  refine ⟨rfl, ?_, ?_⟩
  · intro rs h
    rw [aggregate_classifications, classificationVotes_all_error rs h]
    rfl
  · intro rs hne
    rw [aggregate_classifications]
    set cs := classificationVotes rs with hcs
    rw [if_neg (by simpa [List.isEmpty_iff] using hne)]
    set M := (cs.map fun c => cs.count c).foldr max 0 with hM
    have hex : ∃ c0 ∈ cs, cs.count c0 = M := by
      rcases foldrMax_mem (cs.map fun c => cs.count c) with h0 | hm
      · obtain ⟨c, hc⟩ := List.exists_mem_of_ne_nil cs hne
        have hcnt : 0 < cs.count c := List.count_pos_iff.mpr hc
        have hle : cs.count c ≤ M :=
          le_foldrMax _ _ (List.mem_map_of_mem _ hc)
        omega
      · obtain ⟨c0, hc0, hc0'⟩ := List.mem_map.mp hm
        exact ⟨c0, hc0, hc0'⟩
    obtain ⟨c0, hc0m, hc0⟩ := hex
    have hmc : c0 ∈ cs.dedup.filter fun c => cs.count c = M := by
      rw [List.mem_filter, List.mem_dedup]
      exact ⟨hc0m, by simpa using hc0⟩
    have hperm : List.Perm
        ((cs.dedup.filter fun c => cs.count c = M).insertionSort (fun a b => a ≤ b))
        (cs.dedup.filter fun c => cs.count c = M) :=
      List.perm_insertionSort _ _
    have hsorted : List.Sorted (fun a b => a ≤ b)
        ((cs.dedup.filter fun c => cs.count c = M).insertionSort (fun a b => a ≤ b)) :=
      List.sorted_insertionSort _ _
    have hsne : (cs.dedup.filter fun c => cs.count c = M).insertionSort
        (fun a b => a ≤ b) ≠ [] := by
      intro habs
      rw [habs] at hperm
      exact absurd (hperm.symm.subset hmc) (List.not_mem_nil c0)
    obtain ⟨m, srest, hms⟩ :=
      List.exists_cons_of_ne_nil hsne
    simp only [hms]
    have hmmem : m ∈ cs.dedup.filter fun c => cs.count c = M :=
      hperm.subset (hms ▸ List.mem_cons_self m srest)
    rw [List.mem_filter, List.mem_dedup] at hmmem
    have hmcount : cs.count m = M := by simpa using hmmem.2
    refine ⟨m, hmmem.1, rfl, ?_, ?_⟩
    · intro c hc
      rw [hmcount]
      exact le_foldrMax _ _ (List.mem_map_of_mem _ hc)
    · intro c hc hcc
      have hcf : c ∈ cs.dedup.filter fun x => cs.count x = M := by
        rw [List.mem_filter, List.mem_dedup]
        exact ⟨hc, by simp [hcc, hmcount]⟩
      have hcsorted : c ∈ m :: srest := hms ▸ hperm.symm.subset hcf
      rcases List.mem_cons.mp hcsorted with h | h
      · exact le_of_eq h.symm
      · exact List.rel_of_sorted_cons (hms ▸ hsorted) c h

/-- Witness for C4 on an all-error input and a two-to-one majority vote
('b' wins with confidence 2/3). -/
theorem aggregate_classifications_spec_witness :
    aggregate_classifications [⟨true, 0, some ⟨some "x"⟩, none⟩] = (none, 0) ∧
    aggregate_classifications
      [⟨false, 0, some ⟨some "b"⟩, none⟩, ⟨false, 1, some ⟨some "a"⟩, none⟩,
        ⟨false, 2, some ⟨some "b"⟩, none⟩] =
      (some "b", 2 / 3) := by
  constructor
  · exact aggregate_classifications_spec.2.1 _ (by decide)
  · obtain ⟨m, hm, heq, hmax2, htie⟩ := aggregate_classifications_spec.2.2
      [⟨false, 0, some ⟨some "b"⟩, none⟩, ⟨false, 1, some ⟨some "a"⟩, none⟩,
        ⟨false, 2, some ⟨some "b"⟩, none⟩]
      (by decide)
    have hv : classificationVotes
        [⟨false, 0, some ⟨some "b"⟩, none⟩, ⟨false, 1, some ⟨some "a"⟩, none⟩,
          ⟨false, 2, some ⟨some "b"⟩, none⟩] =
        ["b", "a", "b"] := by decide
    rw [hv] at hm hmax2 heq
    have hmb : m = "b" := by
      rcases List.mem_cons.mp hm with h | h
      · exact h
      · rcases List.mem_cons.mp h with h2 | h2
        · exfalso
          have hle := hmax2 "b" (by simp)
          rw [h2] at hle
          have hb2 : List.count "b" ["b", "a", "b"] = 2 := by decide
          have ha1 : List.count "a" ["b", "a", "b"] = 1 := by decide
          omega
        · simpa using h2
    subst hmb
    rw [heq]
    have hb2 : List.count "b" ["b", "a", "b"] = 2 := by decide
    rw [hb2]
    norm_num

/-! ## Entity deduplication lemmas (C7) -/

theorem count_append_one {α : Type} [DecidableEq α] (l : List α) (a b : α) :
    (l ++ [a]).count b = l.count b + (if a = b then 1 else 0) := by
  rw [List.count_append]
  congr 1
  by_cases h : a = b
  · subst h
    simp
  · rw [if_neg h]
    exact List.count_eq_zero.2 fun hc => h (List.mem_singleton.1 hc).symm

theorem countP_append_one {α : Type} (p : α → Bool) (l : List α) (a : α) :
    (l ++ [a]).countP p = l.countP p + (if p a = true then 1 else 0) := by
  rw [List.countP_append]
  congr 1
  by_cases h : p a = true
  · simp [List.countP_cons, h]
  · simp [List.countP_cons, h]

theorem dedupEnts_cons_skip {ci : Nat} {et ev : Option String} {ep : Option Nat}
    {es : List Entity} {seen : List (String × String)} {acc : List TaggedEntity}
    (h : ¬(truthy et = true ∧ truthy ev = true)) :
    dedupEnts ci (⟨et, ev, ep⟩ :: es) seen acc = dedupEnts ci es seen acc := by
  simp only [dedupEnts]
  rw [if_neg h]

theorem dedupEnts_cons_pageless_seen {ci : Nat} {et ev : Option String}
    {es : List Entity} {seen : List (String × String)} {acc : List TaggedEntity}
    (ht : truthy et = true) (hv : truthy ev = true)
    (hs : entKey ⟨et, ev, none⟩ ∈ seen) :
    dedupEnts ci (⟨et, ev, none⟩ :: es) seen acc = dedupEnts ci es seen acc := by
  simp only [dedupEnts]
  rw [if_pos ⟨ht, hv⟩, if_pos hs]

theorem dedupEnts_cons_pageless_new {ci : Nat} {et ev : Option String}
    {es : List Entity} {seen : List (String × String)} {acc : List TaggedEntity}
    (ht : truthy et = true) (hv : truthy ev = true)
    (hs : entKey ⟨et, ev, none⟩ ∉ seen) :
    dedupEnts ci (⟨et, ev, none⟩ :: es) seen acc =
      dedupEnts ci es (seen ++ [entKey ⟨et, ev, none⟩]) (acc ++ [⟨et, ev, none, ci⟩]) := by
  simp only [dedupEnts]
  rw [if_pos ⟨ht, hv⟩, if_neg hs]

theorem dedupEnts_cons_paged {ci : Nat} {et ev : Option String} {p : Nat}
    {es : List Entity} {seen : List (String × String)} {acc : List TaggedEntity}
    (ht : truthy et = true) (hv : truthy ev = true) :
    dedupEnts ci (⟨et, ev, some p⟩ :: es) seen acc =
      dedupEnts ci es seen (acc ++ [⟨et, ev, some p, ci⟩]) := by
  simp only [dedupEnts]
  rw [if_pos ⟨ht, hv⟩]

theorem firstPagelessIn_cons_skip {ci : Nat} {k : String × String}
    {et ev : Option String} {ep : Option Nat} {es : List Entity}
    (h : ¬(truthy et = true ∧ truthy ev = true)) :
    firstPagelessIn ci k (⟨et, ev, ep⟩ :: es) = firstPagelessIn ci k es := by
  simp only [firstPagelessIn]
  rw [if_neg fun hc => h ⟨hc.1, hc.2.1⟩]

theorem firstPagelessIn_cons_paged {ci : Nat} {k : String × String}
    {et ev : Option String} {p : Nat} {es : List Entity} :
    firstPagelessIn ci k (⟨et, ev, some p⟩ :: es) = firstPagelessIn ci k es := by
  simp only [firstPagelessIn]
  rw [if_neg fun hc => Option.some_ne_none p hc.2.2.1]

theorem firstPagelessIn_cons_hit {ci : Nat} {k : String × String}
    {et ev : Option String} {es : List Entity}
    (ht : truthy et = true) (hv : truthy ev = true)
    (hk : entKey ⟨et, ev, none⟩ = k) :
    firstPagelessIn ci k (⟨et, ev, none⟩ :: es) = some ⟨et, ev, none, ci⟩ := by
  simp only [firstPagelessIn]
  rw [if_pos ⟨ht, hv, by trivial, hk⟩]

theorem firstPagelessIn_cons_miss {ci : Nat} {k : String × String}
    {et ev : Option String} {es : List Entity}
    (hk : entKey ⟨et, ev, none⟩ ≠ k) :
    firstPagelessIn ci k (⟨et, ev, none⟩ :: es) = firstPagelessIn ci k es := by
  simp only [firstPagelessIn]
  rw [if_neg fun hc => hk hc.2.2.2]

theorem dedupChunks_cons_err {r : ChunkResult} {rs : List ChunkResult}
    {seen : List (String × String)} {acc : List TaggedEntity}
    (he : r.error = true) :
    dedupChunks (r :: rs) seen acc = dedupChunks rs seen acc := by
  simp only [dedupChunks]
  rw [if_pos he]

theorem dedupChunks_cons_nopr {r : ChunkResult} {rs : List ChunkResult}
    {seen : List (String × String)} {acc : List TaggedEntity}
    (he : r.error = false) (hpr : r.processingResult = none) :
    dedupChunks (r :: rs) seen acc = dedupChunks rs seen acc := by
  simp only [dedupChunks]
  rw [if_neg (by rw [he]; exact Bool.false_ne_true), hpr]

theorem dedupChunks_cons_pr {r : ChunkResult} {rs : List ChunkResult}
    {pr : ProcessingResult} {seen : List (String × String)} {acc : List TaggedEntity}
    (he : r.error = false) (hpr : r.processingResult = some pr) :
    dedupChunks (r :: rs) seen acc =
      dedupChunks rs (dedupEnts r.chunkIndex pr.entities seen acc).1
        (dedupEnts r.chunkIndex pr.entities seen acc).2 := by
  simp only [dedupChunks]
  rw [if_neg (by rw [he]; exact Bool.false_ne_true), hpr]

theorem firstPageless_cons_err {k : String × String} {r : ChunkResult}
    {rs : List ChunkResult} (he : r.error = true) :
    firstPageless k (r :: rs) = firstPageless k rs := by
  simp only [firstPageless]
  rw [if_pos he]

theorem firstPageless_cons_nopr {k : String × String} {r : ChunkResult}
    {rs : List ChunkResult} (he : r.error = false) (hpr : r.processingResult = none) :
    firstPageless k (r :: rs) = firstPageless k rs := by
  simp only [firstPageless]
  rw [if_neg (by rw [he]; exact Bool.false_ne_true), hpr]

theorem firstPageless_cons_hit {k : String × String} {r : ChunkResult}
    {rs : List ChunkResult} {pr : ProcessingResult} {te : TaggedEntity}
    (he : r.error = false) (hpr : r.processingResult = some pr)
    (hfi : firstPagelessIn r.chunkIndex k pr.entities = some te) :
    firstPageless k (r :: rs) = some te := by
  have hstep : firstPageless k (r :: rs) =
      match firstPagelessIn r.chunkIndex k pr.entities with
      | some te2 => some te2
      | none => firstPageless k rs := by
    simp only [firstPageless]
    rw [if_neg (by rw [he]; exact Bool.false_ne_true), hpr]
  rw [hstep, hfi]

theorem firstPageless_cons_miss {k : String × String} {r : ChunkResult}
    {rs : List ChunkResult} {pr : ProcessingResult}
    (he : r.error = false) (hpr : r.processingResult = some pr)
    (hfi : firstPagelessIn r.chunkIndex k pr.entities = none) :
    firstPageless k (r :: rs) = firstPageless k rs := by
  have hstep : firstPageless k (r :: rs) =
      match firstPagelessIn r.chunkIndex k pr.entities with
      | some te2 => some te2
      | none => firstPageless k rs := by
    simp only [firstPageless]
    rw [if_neg (by rw [he]; exact Bool.false_ne_true), hpr]
  rw [hstep, hfi]

theorem dedupEnts_acc_mono (ci : Nat) (es : List Entity) :
    ∀ (seen : List (String × String)) (acc : List TaggedEntity) (te : TaggedEntity),
      te ∈ acc → te ∈ (dedupEnts ci es seen acc).2 := by
  induction es with
  | nil => intro seen acc te h; exact h
  | cons e es ih =>
    obtain ⟨et, ev, ep⟩ := e
    intro seen acc te h
    by_cases htv : truthy et = true ∧ truthy ev = true
    · cases ep with
      | none =>
        by_cases hs : entKey ⟨et, ev, none⟩ ∈ seen
        · rw [dedupEnts_cons_pageless_seen htv.1 htv.2 hs]
          exact ih seen acc te h
        · rw [dedupEnts_cons_pageless_new htv.1 htv.2 hs]
          exact ih _ _ te (List.mem_append_left _ h)
      | some p =>
        rw [dedupEnts_cons_paged htv.1 htv.2]
        exact ih _ _ te (List.mem_append_left _ h)
    · rw [dedupEnts_cons_skip htv]
      exact ih seen acc te h

theorem dedupEnts_valid (ci : Nat) (es : List Entity) :
    ∀ (seen : List (String × String)) (acc : List TaggedEntity),
      (∀ te ∈ acc, truthy te.etype = true ∧ truthy te.value = true) →
      ∀ te ∈ (dedupEnts ci es seen acc).2,
        truthy te.etype = true ∧ truthy te.value = true := by
  induction es with
  | nil => intro seen acc h te ht; exact h te ht
  | cons e es ih =>
    obtain ⟨et, ev, ep⟩ := e
    intro seen acc h
    by_cases htv : truthy et = true ∧ truthy ev = true
    · cases ep with
      | none =>
        by_cases hs : entKey ⟨et, ev, none⟩ ∈ seen
        · rw [dedupEnts_cons_pageless_seen htv.1 htv.2 hs]
          exact ih seen acc h
        · rw [dedupEnts_cons_pageless_new htv.1 htv.2 hs]
          refine ih _ _ ?_
          intro x hx
          rcases List.mem_append.1 hx with hx | hx
          · exact h x hx
          · have hx2 := List.mem_singleton.1 hx
            subst hx2
            exact ⟨htv.1, htv.2⟩
      | some p =>
        rw [dedupEnts_cons_paged htv.1 htv.2]
        refine ih _ _ ?_
        intro x hx
        rcases List.mem_append.1 hx with hx | hx
        · exact h x hx
        · have hx2 := List.mem_singleton.1 hx
          subst hx2
          exact ⟨htv.1, htv.2⟩
    · rw [dedupEnts_cons_skip htv]
      exact ih seen acc h

theorem dedupEnts_seen_iff (ci : Nat) (k : String × String) (es : List Entity) :
    ∀ (seen : List (String × String)) (acc : List TaggedEntity),
      (k ∈ (dedupEnts ci es seen acc).1 ↔
        k ∈ seen ∨ (firstPagelessIn ci k es).isSome = true) := by
  induction es with
  | nil =>
    intro seen acc
    simp [dedupEnts, firstPagelessIn]
  | cons e es ih =>
    obtain ⟨et, ev, ep⟩ := e
    intro seen acc
    by_cases htv : truthy et = true ∧ truthy ev = true
    · cases ep with
      | none =>
        by_cases hk : entKey ⟨et, ev, none⟩ = k
        · by_cases hs : entKey ⟨et, ev, none⟩ ∈ seen
          · rw [dedupEnts_cons_pageless_seen htv.1 htv.2 hs,
              firstPagelessIn_cons_hit htv.1 htv.2 hk, ih]
            rw [hk] at hs
            simp [hs]
          · rw [dedupEnts_cons_pageless_new htv.1 htv.2 hs,
              firstPagelessIn_cons_hit htv.1 htv.2 hk, ih]
            have hkm : k ∈ seen ++ [entKey ⟨et, ev, none⟩] :=
              List.mem_append_right _ (by rw [hk]; exact List.mem_singleton.2 rfl)
            simp [hkm]
        · by_cases hs : entKey ⟨et, ev, none⟩ ∈ seen
          · rw [dedupEnts_cons_pageless_seen htv.1 htv.2 hs,
              firstPagelessIn_cons_miss hk, ih]
          · rw [dedupEnts_cons_pageless_new htv.1 htv.2 hs,
              firstPagelessIn_cons_miss hk, ih]
            have hmem : k ∈ seen ++ [entKey ⟨et, ev, none⟩] ↔ k ∈ seen := by
              rw [List.mem_append]
              constructor
              · rintro (h | h)
                · exact h
                · exact absurd (List.mem_singleton.1 h).symm hk
              · exact Or.inl
            rw [hmem]
      | some p =>
        rw [dedupEnts_cons_paged htv.1 htv.2, firstPagelessIn_cons_paged, ih]
    · rw [dedupEnts_cons_skip htv, firstPagelessIn_cons_skip htv, ih]

theorem dedupEnts_countP (ci : Nat) (k : String × String) (es : List Entity) :
    ∀ (seen : List (String × String)) (acc : List TaggedEntity),
      ((dedupEnts ci es seen acc).2).countP (pagelessKey k) =
        acc.countP (pagelessKey k) +
          (if k ∈ seen then 0 else (firstPagelessIn ci k es).elim 0 fun _ => 1) := by
  induction es with
  | nil =>
    intro seen acc
    simp [dedupEnts, firstPagelessIn]
  | cons e es ih =>
    obtain ⟨et, ev, ep⟩ := e
    intro seen acc
    by_cases htv : truthy et = true ∧ truthy ev = true
    · cases ep with
      | none =>
        by_cases hk : entKey ⟨et, ev, none⟩ = k
        · by_cases hs : entKey ⟨et, ev, none⟩ ∈ seen
          · rw [dedupEnts_cons_pageless_seen htv.1 htv.2 hs, ih,
              firstPagelessIn_cons_hit htv.1 htv.2 hk]
            have hks : k ∈ seen := by rw [← hk]; exact hs
            rw [if_pos hks, if_pos hks]
          · rw [dedupEnts_cons_pageless_new htv.1 htv.2 hs, ih,
              firstPagelessIn_cons_hit htv.1 htv.2 hk, countP_append_one]
            have hks : k ∉ seen := fun h => hs (by rw [hk]; exact h)
            have hks2 : k ∈ seen ++ [entKey ⟨et, ev, none⟩] :=
              List.mem_append_right _ (by rw [hk]; exact List.mem_singleton.2 rfl)
            have hpk : pagelessKey k ⟨et, ev, none, ci⟩ = true := by
              simp only [pagelessKey]
              exact decide_eq_true ⟨by trivial, hk⟩
            rw [if_pos hks2, if_neg hks, if_pos hpk]
            simp
        · by_cases hs : entKey ⟨et, ev, none⟩ ∈ seen
          · rw [dedupEnts_cons_pageless_seen htv.1 htv.2 hs, ih,
              firstPagelessIn_cons_miss hk]
          · rw [dedupEnts_cons_pageless_new htv.1 htv.2 hs, ih,
              firstPagelessIn_cons_miss hk, countP_append_one]
            have hpk : pagelessKey k ⟨et, ev, none, ci⟩ = false := by
              simp only [pagelessKey]
              exact decide_eq_false fun hc => hk hc.2
            have hmem : k ∈ seen ++ [entKey ⟨et, ev, none⟩] ↔ k ∈ seen := by
              rw [List.mem_append]
              constructor
              · rintro (h | h)
                · exact h
                · exact absurd (List.mem_singleton.1 h).symm hk
              · exact Or.inl
            simp only [hpk, hmem]
            simp
      | some p =>
        rw [dedupEnts_cons_paged htv.1 htv.2, ih, firstPagelessIn_cons_paged,
          countP_append_one]
        have hpk : pagelessKey k ⟨et, ev, some p, ci⟩ = false := by
          simp only [pagelessKey]
          exact decide_eq_false fun hc => Option.some_ne_none p hc.1
        simp [hpk]
    · rw [dedupEnts_cons_skip htv, ih, firstPagelessIn_cons_skip htv]

theorem dedupEnts_pageless_mem (ci : Nat) (k : String × String) (es : List Entity) :
    ∀ (seen : List (String × String)) (acc : List TaggedEntity) (te : TaggedEntity),
      te ∈ (dedupEnts ci es seen acc).2 → pagelessKey k te = true →
      te ∈ acc ∨ (k ∉ seen ∧ firstPagelessIn ci k es = some te) := by
  induction es with
  | nil =>
    intro seen acc te h _
    exact Or.inl h
  | cons e es ih =>
    obtain ⟨et, ev, ep⟩ := e
    intro seen acc te h hpk
    by_cases htv : truthy et = true ∧ truthy ev = true
    · cases ep with
      | none =>
        by_cases hk0 : entKey ⟨et, ev, none⟩ = k
        · by_cases hs : entKey ⟨et, ev, none⟩ ∈ seen
          · rw [dedupEnts_cons_pageless_seen htv.1 htv.2 hs] at h
            rcases ih seen acc te h hpk with h2 | ⟨h2, _⟩
            · exact Or.inl h2
            · exact absurd (by rw [← hk0]; exact hs) h2
          · rw [dedupEnts_cons_pageless_new htv.1 htv.2 hs] at h
            rcases ih _ _ te h hpk with h2 | ⟨h2, _⟩
            · rcases List.mem_append.1 h2 with h3 | h3
              · exact Or.inl h3
              · have h4 := List.mem_singleton.1 h3
                subst h4
                refine Or.inr ⟨fun hc => hs (by rw [hk0]; exact hc), ?_⟩
                rw [firstPagelessIn_cons_hit htv.1 htv.2 hk0]
            · exact absurd
                (List.mem_append_right _ (by rw [hk0]; exact List.mem_singleton.2 rfl)) h2
        · by_cases hs : entKey ⟨et, ev, none⟩ ∈ seen
          · rw [dedupEnts_cons_pageless_seen htv.1 htv.2 hs] at h
            rcases ih seen acc te h hpk with h2 | ⟨h2, h3⟩
            · exact Or.inl h2
            · exact Or.inr ⟨h2, by rw [firstPagelessIn_cons_miss hk0]; exact h3⟩
          · rw [dedupEnts_cons_pageless_new htv.1 htv.2 hs] at h
            rcases ih _ _ te h hpk with h2 | ⟨h2, h3⟩
            · rcases List.mem_append.1 h2 with h3 | h3
              · exact Or.inl h3
              · exfalso
                have h4 := List.mem_singleton.1 h3
                subst h4
                have h5 := of_decide_eq_true hpk
                exact hk0 h5.2
            · refine Or.inr ⟨fun hc => h2 (List.mem_append_left _ hc), ?_⟩
              rw [firstPagelessIn_cons_miss hk0]
              exact h3
      | some p =>
        rw [dedupEnts_cons_paged htv.1 htv.2] at h
        rcases ih _ _ te h hpk with h2 | ⟨h2, h3⟩
        · rcases List.mem_append.1 h2 with h3 | h3
          · exact Or.inl h3
          · exfalso
            have h4 := List.mem_singleton.1 h3
            subst h4
            have h5 := of_decide_eq_true hpk
            exact Option.some_ne_none p h5.1
        · exact Or.inr ⟨h2, by rw [firstPagelessIn_cons_paged]; exact h3⟩
    · rw [dedupEnts_cons_skip htv] at h
      rcases ih seen acc te h hpk with h2 | ⟨h2, h3⟩
      · exact Or.inl h2
      · exact Or.inr ⟨h2, by rw [firstPagelessIn_cons_skip htv]; exact h3⟩

theorem dedupEnts_first_mem (ci : Nat) (k : String × String) (es : List Entity) :
    ∀ (seen : List (String × String)) (acc : List TaggedEntity) (te : TaggedEntity),
      k ∉ seen → firstPagelessIn ci k es = some te →
      te ∈ (dedupEnts ci es seen acc).2 := by
  induction es with
  | nil =>
    intro seen acc te _ hf
    exact absurd hf (by simp [firstPagelessIn])
  | cons e es ih =>
    obtain ⟨et, ev, ep⟩ := e
    intro seen acc te hks hf
    by_cases htv : truthy et = true ∧ truthy ev = true
    · cases ep with
      | none =>
        by_cases hk0 : entKey ⟨et, ev, none⟩ = k
        · by_cases hs : entKey ⟨et, ev, none⟩ ∈ seen
          · exact absurd (by rw [← hk0]; exact hs) hks
          · rw [firstPagelessIn_cons_hit htv.1 htv.2 hk0] at hf
            injection hf with hte
            rw [dedupEnts_cons_pageless_new htv.1 htv.2 hs]
            refine dedupEnts_acc_mono ci es _ _ te ?_
            rw [← hte]
            exact List.mem_append_right _ (List.mem_singleton.2 rfl)
        · rw [firstPagelessIn_cons_miss hk0] at hf
          by_cases hs : entKey ⟨et, ev, none⟩ ∈ seen
          · rw [dedupEnts_cons_pageless_seen htv.1 htv.2 hs]
            exact ih seen acc te hks hf
          · rw [dedupEnts_cons_pageless_new htv.1 htv.2 hs]
            refine ih _ _ te ?_ hf
            intro hc
            rcases List.mem_append.1 hc with hc | hc
            · exact hks hc
            · exact hk0 (List.mem_singleton.1 hc).symm
      | some p =>
        rw [firstPagelessIn_cons_paged] at hf
        rw [dedupEnts_cons_paged htv.1 htv.2]
        exact ih _ _ te hks hf
    · rw [firstPagelessIn_cons_skip htv] at hf
      rw [dedupEnts_cons_skip htv]
      exact ih seen acc te hks hf

theorem dedupEnts_paged_count (ci : Nat) (te : TaggedEntity) (hp : te.page ≠ none)
    (es : List Entity) :
    ∀ (seen : List (String × String)) (acc : List TaggedEntity),
      ((dedupEnts ci es seen acc).2).count te =
        acc.count te +
          (if ci = te.chunkIndex ∧ validEntity ⟨te.etype, te.value, te.page⟩ = true
            then es.count ⟨te.etype, te.value, te.page⟩ else 0) := by
  induction es with
  | nil =>
    intro seen acc
    simp [dedupEnts]
  | cons e es ih =>
    obtain ⟨et, ev, ep⟩ := e
    intro seen acc
    by_cases htv : truthy et = true ∧ truthy ev = true
    · cases ep with
      | none =>
        have hne : (⟨et, ev, none⟩ : Entity) ≠ ⟨te.etype, te.value, te.page⟩ := by
          intro hc
          injection hc with h1 h2 h3
          exact hp h3.symm
        have hcnt : ((⟨et, ev, none⟩ : Entity) :: es).count
            (⟨te.etype, te.value, te.page⟩ : Entity) =
            es.count ⟨te.etype, te.value, te.page⟩ :=
          List.count_cons_of_ne (Ne.symm hne) _
        by_cases hs : entKey ⟨et, ev, none⟩ ∈ seen
        · rw [dedupEnts_cons_pageless_seen htv.1 htv.2 hs, ih, hcnt]
        · rw [dedupEnts_cons_pageless_new htv.1 htv.2 hs, ih, hcnt, count_append_one]
          have hneT : (⟨et, ev, none, ci⟩ : TaggedEntity) ≠ te := by
            intro hc
            rw [← hc] at hp
            exact hp rfl
          rw [if_neg hneT]
          omega
      | some p =>
        rw [dedupEnts_cons_paged htv.1 htv.2, ih, count_append_one]
        by_cases heq : (⟨et, ev, some p⟩ : Entity) = ⟨te.etype, te.value, te.page⟩
        · injection heq with h1 h2 h3
          by_cases hci : ci = te.chunkIndex
          · have hvalid : validEntity ⟨te.etype, te.value, te.page⟩ = true := by
              show (truthy te.etype && truthy te.value) = true
              rw [← h1, ← h2, htv.1, htv.2]
              rfl
            have hteq : (⟨et, ev, some p, ci⟩ : TaggedEntity) = te := by
              rw [h1, h2, h3, hci]
            have hcnt1 : ((⟨et, ev, some p⟩ : Entity) :: es).count
                (⟨te.etype, te.value, te.page⟩ : Entity) =
                es.count ⟨te.etype, te.value, te.page⟩ + 1 := by
              rw [show (⟨et, ev, some p⟩ : Entity) = ⟨te.etype, te.value, te.page⟩ from by
                rw [h1, h2, h3]]
              exact List.count_cons_self _ _
            rw [if_pos hteq, if_pos ⟨hci, hvalid⟩, if_pos ⟨hci, hvalid⟩, hcnt1]
            omega
          · have hneT : (⟨et, ev, some p, ci⟩ : TaggedEntity) ≠ te := by
              intro hc
              apply hci
              rw [← hc]
            rw [if_neg hneT, if_neg (fun hc => hci hc.1), if_neg (fun hc => hci hc.1)]
        · have hneT : (⟨et, ev, some p, ci⟩ : TaggedEntity) ≠ te := by
            intro hc
            apply heq
            rw [← hc]
          have hcnt2 : ((⟨et, ev, some p⟩ : Entity) :: es).count
              (⟨te.etype, te.value, te.page⟩ : Entity) =
              es.count ⟨te.etype, te.value, te.page⟩ :=
            List.count_cons_of_ne (fun hc => heq hc.symm) _
          rw [if_neg hneT, hcnt2]
          omega
    · rw [dedupEnts_cons_skip htv, ih]
      by_cases hC : ci = te.chunkIndex ∧ validEntity ⟨te.etype, te.value, te.page⟩ = true
      · have hne : (⟨et, ev, ep⟩ : Entity) ≠ ⟨te.etype, te.value, te.page⟩ := by
          intro hc
          apply htv
          have hv := hC.2
          rw [← hc] at hv
          simp only [validEntity, Bool.and_eq_true] at hv
          exact hv
        rw [List.count_cons_of_ne (fun hc => hne hc.symm)]
      · rw [if_neg hC, if_neg hC]

theorem chunkContrib_eq {r : ChunkResult} {pr : ProcessingResult}
    (he : r.error = false) (hpr : r.processingResult = some pr) (te : TaggedEntity) :
    chunkContrib te r =
      if r.chunkIndex = te.chunkIndex ∧
          validEntity ⟨te.etype, te.value, te.page⟩ = true
        then pr.entities.count ⟨te.etype, te.value, te.page⟩ else 0 := by
  unfold chunkContrib
  rw [hpr]
  by_cases h1 : r.chunkIndex = te.chunkIndex
  · by_cases h2 : validEntity ⟨te.etype, te.value, te.page⟩ = true
    · rw [if_pos ⟨he, h1⟩, if_pos ⟨h1, h2⟩]
      simp [h2]
    · rw [if_pos ⟨he, h1⟩, if_neg fun hc => h2 hc.2]
      simp [h2]
  · rw [if_neg fun hc => h1 hc.2, if_neg fun hc => h1 hc.1]

theorem dedupChunks_acc_mono (rs : List ChunkResult) :
    ∀ (seen : List (String × String)) (acc : List TaggedEntity) (te : TaggedEntity),
      te ∈ acc → te ∈ dedupChunks rs seen acc := by
  induction rs with
  | nil => intro seen acc te h; exact h
  | cons r rs ih =>
    intro seen acc te h
    cases he : r.error with
    | false =>
      cases hpr : r.processingResult with
      | none =>
        rw [dedupChunks_cons_nopr he hpr]
        exact ih seen acc te h
      | some pr =>
        rw [dedupChunks_cons_pr he hpr]
        exact ih _ _ te (dedupEnts_acc_mono _ _ _ _ te h)
    | true =>
      rw [dedupChunks_cons_err he]
      exact ih seen acc te h

theorem dedupChunks_valid (rs : List ChunkResult) :
    ∀ (seen : List (String × String)) (acc : List TaggedEntity),
      (∀ te ∈ acc, truthy te.etype = true ∧ truthy te.value = true) →
      ∀ te ∈ dedupChunks rs seen acc,
        truthy te.etype = true ∧ truthy te.value = true := by
  induction rs with
  | nil => intro seen acc h te hte; exact h te hte
  | cons r rs ih =>
    intro seen acc h
    cases he : r.error with
    | false =>
      cases hpr : r.processingResult with
      | none =>
        rw [dedupChunks_cons_nopr he hpr]
        exact ih seen acc h
      | some pr =>
        rw [dedupChunks_cons_pr he hpr]
        exact ih _ _ (dedupEnts_valid _ _ _ _ h)
    | true =>
      rw [dedupChunks_cons_err he]
      exact ih seen acc h

theorem dedupChunks_countP (k : String × String) (rs : List ChunkResult) :
    ∀ (seen : List (String × String)) (acc : List TaggedEntity),
      (dedupChunks rs seen acc).countP (pagelessKey k) =
        acc.countP (pagelessKey k) +
          (if k ∈ seen then 0 else (firstPageless k rs).elim 0 fun _ => 1) := by
  induction rs with
  | nil =>
    intro seen acc
    simp [dedupChunks, firstPageless]
  | cons r rs ih =>
    intro seen acc
    cases he : r.error with
    | true =>
      rw [dedupChunks_cons_err he, ih, firstPageless_cons_err he]
    | false =>
      cases hpr : r.processingResult with
      | none =>
        rw [dedupChunks_cons_nopr he hpr, ih, firstPageless_cons_nopr he hpr]
      | some pr =>
        rw [dedupChunks_cons_pr he hpr, ih, dedupEnts_countP]
        have hiff := dedupEnts_seen_iff r.chunkIndex k pr.entities seen acc
        cases hfi : firstPagelessIn r.chunkIndex k pr.entities with
        | none =>
          rw [firstPageless_cons_miss he hpr hfi]
          rw [hfi] at hiff
          simp only [Option.isSome_none, Bool.false_eq_true, or_false] at hiff
          by_cases hks : k ∈ seen
          · rw [if_pos hks, if_pos (hiff.2 hks), if_pos hks]
          · have hns : k ∉ (dedupEnts r.chunkIndex pr.entities seen acc).1 :=
              fun hc => hks (hiff.1 hc)
            rw [if_neg hks, if_neg hns, if_neg hks]
            simp only [Option.elim_none]
            omega
        | some te2 =>
          rw [firstPageless_cons_hit he hpr hfi]
          rw [hfi] at hiff
          by_cases hks : k ∈ seen
          · rw [if_pos (hiff.2 (Or.inl hks)), if_pos hks]
          · rw [if_pos (hiff.2 (Or.inr rfl)), if_neg hks]
            omega

theorem dedupChunks_pageless_mem (k : String × String) (rs : List ChunkResult) :
    ∀ (seen : List (String × String)) (acc : List TaggedEntity) (te : TaggedEntity),
      te ∈ dedupChunks rs seen acc → pagelessKey k te = true →
      te ∈ acc ∨ (k ∉ seen ∧ firstPageless k rs = some te) := by
  induction rs with
  | nil => intro seen acc te h _; exact Or.inl h
  | cons r rs ih =>
    intro seen acc te h hpk
    cases he : r.error with
    | true =>
      rw [dedupChunks_cons_err he] at h
      rcases ih seen acc te h hpk with h2 | ⟨h2, h3⟩
      · exact Or.inl h2
      · exact Or.inr ⟨h2, by rw [firstPageless_cons_err he]; exact h3⟩
    | false =>
      cases hpr : r.processingResult with
      | none =>
        rw [dedupChunks_cons_nopr he hpr] at h
        rcases ih seen acc te h hpk with h2 | ⟨h2, h3⟩
        · exact Or.inl h2
        · exact Or.inr ⟨h2, by rw [firstPageless_cons_nopr he hpr]; exact h3⟩
      | some pr =>
        rw [dedupChunks_cons_pr he hpr] at h
        have hiff := dedupEnts_seen_iff r.chunkIndex k pr.entities seen acc
        rcases ih _ _ te h hpk with h2 | ⟨h2, h3⟩
        · rcases dedupEnts_pageless_mem _ _ _ _ _ te h2 hpk with h4 | ⟨h4, h5⟩
          · exact Or.inl h4
          · exact Or.inr ⟨h4, firstPageless_cons_hit he hpr h5⟩
        · have hks : k ∉ seen := fun hc => h2 (hiff.2 (Or.inl hc))
          have hfi : firstPagelessIn r.chunkIndex k pr.entities = none := by
            cases hfi0 : firstPagelessIn r.chunkIndex k pr.entities with
            | none => rfl
            | some x =>
              exact absurd (hiff.2 (Or.inr (by rw [hfi0]; rfl))) h2
          exact Or.inr ⟨hks, by rw [firstPageless_cons_miss he hpr hfi]; exact h3⟩

theorem dedupChunks_first_mem (k : String × String) (rs : List ChunkResult) :
    ∀ (seen : List (String × String)) (acc : List TaggedEntity) (te : TaggedEntity),
      k ∉ seen → firstPageless k rs = some te → te ∈ dedupChunks rs seen acc := by
  induction rs with
  | nil =>
    intro seen acc te _ hf
    exact absurd hf (by simp [firstPageless])
  | cons r rs ih =>
    intro seen acc te hks hf
    cases he : r.error with
    | true =>
      rw [firstPageless_cons_err he] at hf
      rw [dedupChunks_cons_err he]
      exact ih seen acc te hks hf
    | false =>
      cases hpr : r.processingResult with
      | none =>
        rw [firstPageless_cons_nopr he hpr] at hf
        rw [dedupChunks_cons_nopr he hpr]
        exact ih seen acc te hks hf
      | some pr =>
        rw [dedupChunks_cons_pr he hpr]
        cases hfi : firstPagelessIn r.chunkIndex k pr.entities with
        | some te2 =>
          rw [firstPageless_cons_hit he hpr hfi] at hf
          injection hf with hf2
          subst hf2
          exact dedupChunks_acc_mono rs _ _ _
            (dedupEnts_first_mem _ _ _ _ _ _ hks hfi)
        | none =>
          rw [firstPageless_cons_miss he hpr hfi] at hf
          have hks1 : k ∉ (dedupEnts r.chunkIndex pr.entities seen acc).1 := by
            intro hc
            rcases (dedupEnts_seen_iff r.chunkIndex k pr.entities seen acc).1 hc
              with hc2 | hc2
            · exact hks hc2
            · rw [hfi] at hc2
              simp at hc2
          exact ih _ _ te hks1 hf

theorem dedupChunks_paged_count (te : TaggedEntity) (hp : te.page ≠ none)
    (rs : List ChunkResult) :
    ∀ (seen : List (String × String)) (acc : List TaggedEntity),
      (dedupChunks rs seen acc).count te = acc.count te + sourcePagedCount rs te := by
  induction rs with
  | nil =>
    intro seen acc
    simp [dedupChunks, sourcePagedCount]
  | cons r rs ih =>
    intro seen acc
    have hspc : sourcePagedCount (r :: rs) te =
        chunkContrib te r + sourcePagedCount rs te := by
      simp [sourcePagedCount]
    cases he : r.error with
    | true =>
      rw [dedupChunks_cons_err he, ih, hspc]
      have hcc : chunkContrib te r = 0 := by simp [chunkContrib, he]
      rw [hcc]
      omega
    | false =>
      cases hpr : r.processingResult with
      | none =>
        rw [dedupChunks_cons_nopr he hpr, ih, hspc]
        have hcc : chunkContrib te r = 0 := by simp [chunkContrib, hpr]
        rw [hcc]
        omega
      | some pr =>
        rw [dedupChunks_cons_pr he hpr, ih, dedupEnts_paged_count _ te hp, hspc,
          chunkContrib_eq he hpr]
        omega

/-- **C7.** `deduplicate_entities` iterates chunks in input order: every valid
entity (truthy `type` and `value`) with a `page` field is always kept —
the output multiplicity of each paged tagged entity equals its total
multiplicity over the matching non-error chunks, so paged entities are never
deduplicated against anything; a valid page-less entity is kept exactly when it
is the first occurrence of its `(type, value)` key over all chunks in input
order (at most one page-less output entity per key, and the first occurrence is
always kept); each kept entity is tagged with its source `chunkIndex`; and the
final list is sorted ascending by `(chunkIndex, page-or-0)`. -/
theorem deduplicate_entities_spec (rs : List ChunkResult) :
    List.Sorted entityLe (deduplicate_entities rs) ∧
    (∀ te ∈ deduplicate_entities rs,
      truthy te.etype = true ∧ truthy te.value = true) ∧
    (∀ te : TaggedEntity, te.page ≠ none →
      (deduplicate_entities rs).count te = sourcePagedCount rs te) ∧
    (∀ te ∈ deduplicate_entities rs, te.page = none →
      firstPageless (entKeyT te) rs = some te) ∧
    (∀ (k : String × String) (te : TaggedEntity),
      firstPageless k rs = some te → te ∈ deduplicate_entities rs) ∧
    (∀ k : String × String,
      (deduplicate_entities rs).countP (pagelessKey k) ≤ 1) := by
  have hperm : (dedupChunks rs [] []).Perm (deduplicate_entities rs) :=
    (List.perm_insertionSort entityLe _).symm
  refine ⟨?_, ?_, ?_, ?_, ?_, ?_⟩
  · exact List.sorted_insertionSort entityLe _
  · intro te hte
    exact dedupChunks_valid rs [] [] (by simp) te (hperm.mem_iff.2 hte)
  · intro te hp
    rw [← hperm.count_eq te, dedupChunks_paged_count te hp rs [] []]
    simp
  · intro te hte hp0
    have hm := hperm.mem_iff.2 hte
    have hpk : pagelessKey (entKeyT te) te = true := by
      simp [pagelessKey, hp0]
    rcases dedupChunks_pageless_mem (entKeyT te) rs [] [] te hm hpk with h | ⟨_, h⟩
    · exact absurd h (List.not_mem_nil te)
    · exact h
  · intro k te h
    exact hperm.mem_iff.1 (dedupChunks_first_mem k rs [] [] te (List.not_mem_nil k) h)
  · intro k
    rw [← hperm.countP_eq _, dedupChunks_countP k rs [] []]
    cases firstPageless k rs with
    | none => simp
    | some te => simp

/-- Witness for C7 at the spec's deduplication example: the two identical
page-less AMOUNT entities collapse to one while the paged DATE entity is kept,
so the output has length 2; the main theorem is instantiated there. -/
theorem deduplicate_entities_spec_witness :
    (deduplicate_entities dedupExample).length = 2 ∧
    List.Sorted entityLe (deduplicate_entities dedupExample) ∧
    (deduplicate_entities dedupExample).count
        ⟨some "DATE", some "2024-01-01", some 1, 0⟩ =
      sourcePagedCount dedupExample ⟨some "DATE", some "2024-01-01", some 1, 0⟩ ∧
    (⟨some "AMOUNT", some "100", none, 0⟩ : TaggedEntity) ∈
      deduplicate_entities dedupExample ∧
    (deduplicate_entities dedupExample).countP (pagelessKey ("AMOUNT", "100")) ≤ 1 := by
  obtain ⟨h1, h2, h3, h4, h5, h6⟩ := deduplicate_entities_spec dedupExample
  exact ⟨by decide, h1, h3 _ (by decide), h5 ("AMOUNT", "100") _ (by decide), h6 _⟩

/-! ## Hybrid calculator lemmas (C9, C2, C3) -/

theorem hyWalk_spec (all : List Nat) (ovTok floor : Nat) :
    ∀ (o acc op : Nat), floor ≤ o → op ≤ 10 →
      floor ≤ (hyWalk all ovTok floor o acc op).1 ∧
      (hyWalk all ovTok floor o acc op).1 ≤ o ∧
      op ≤ (hyWalk all ovTok floor o acc op).2.2 ∧
      (hyWalk all ovTok floor o acc op).2.2 ≤ 10 ∧
      o - (hyWalk all ovTok floor o acc op).1 =
        (hyWalk all ovTok floor o acc op).2.2 - op := by
  intro o
  induction o with
  | zero =>
    intro acc op hf hop
    refine ⟨hf, Nat.le_refl _, Nat.le_refl _, hop, ?_⟩
    show 0 - 0 = op - op
    omega
  | succ o ih =>
    intro acc op hf hop
    rw [hyWalk]
    by_cases hc : floor < o + 1 ∧ acc < ovTok ∧ op < 10
    · rw [if_pos hc]
      have h := ih (acc + all.getD o 0) (op + 1) (by omega) (by omega)
      exact ⟨h.1, by omega, by omega, h.2.2.2.1, by omega⟩
    · rw [if_neg hc]
      refine ⟨hf, Nat.le_refl _, Nat.le_refl _, hop, ?_⟩
      show o + 1 - (o + 1) = op - op
      omega

/-- Introduction rule for `hyInv` on an explicit state record. -/
theorem hyInv_intro (maxPages p : Nat) (chunks : List HYBoundary)
    (start curTok curPages idx : Nat)
    (c1 : ∀ b ∈ chunks, b.page_count ≤ maxPages)
    (c2 : List.Chain' hyRel chunks)
    (c3 : chunks.map (fun b => b.chunk_index) = List.range chunks.length)
    (c4 : idx = chunks.length)
    (c5 : chunks = [] → start = 0)
    (c6 : ∀ b0, chunks.head? = some b0 → b0.start_page = 0)
    (c7 : ∀ bl, chunks.getLast? = some bl →
      start ≤ bl.end_page + 1 ∧ bl.end_page + 1 - start ≤ 10 ∧ bl.end_page + 2 ≤ p)
    (c8 : curPages = p - start) (c9 : start ≤ p) (c10 : curPages ≤ maxPages)
    (c11 : 0 < curTok → 0 < curPages) :
    hyInv maxPages p ⟨chunks, start, curTok, curPages, idx⟩ :=
  ⟨c1, c2, c3, c4, c5, c6, c7, c8, c9, c10, c11⟩

/-- The hybrid main loop preserves `hyInv` (given `maxPages ≥ 11`). -/
theorem hyGo_inv (all : List Nat) (target maxPages ovTok : Nat) (hmp : 11 ≤ maxPages) :
    ∀ (rest : List Nat) (p : Nat) (s : HYState),
      hyInv maxPages p s →
      hyInv maxPages (p + rest.length) (hyGo all target maxPages ovTok p rest s) := by
  intro rest
  induction rest with
  | nil =>
    intro p s h
    simpa [hyGo] using h
  | cons t rest ih =>
    intro p s h
    obtain ⟨h1, h2, h3, h4, h5, h6, h7, h8, h9, h10, h11⟩ := h
    have hlen : p + 1 + rest.length = p + (t :: rest).length := by
      simp only [List.length_cons]; omega
    rw [hyGo]
    by_cases hc : (target < s.curTok + t ∧ 0 < s.curTok) ∨
        (maxPages ≤ s.curPages ∧ 0 < s.curPages)
    · rw [if_pos hc]
      have hcp : 0 < s.curPages := by
        rcases hc with ⟨_, hct⟩ | ⟨_, hcp⟩
        · exact h11 hct
        · exact hcp
      have hp1 : 1 ≤ p := by omega
      have hws := hyWalk_spec all ovTok s.start p 0 0 h9 (by omega)
      obtain ⟨hw1, hw2, hw3, hw4, hw5⟩ := hws
      have hnew : hyInv maxPages (p + 1)
          ⟨s.chunks ++ [⟨s.idx, s.start, p - 1, s.curPages, s.curTok,
            if maxPages ≤ s.curPages then FinalizeReason.page_limit
            else FinalizeReason.token_limit⟩],
           (hyWalk all ovTok s.start p 0 0).1,
           (hyWalk all ovTok s.start p 0 0).2.1 + t,
           (hyWalk all ovTok s.start p 0 0).2.2 + 1, s.idx + 1⟩ := by
        apply hyInv_intro
        · intro b hb
          rcases List.mem_append.mp hb with hb | hb
          · exact h1 b hb
          · simp only [List.mem_singleton] at hb
            subst hb
            exact h10
        · rw [List.chain'_append]
          refine ⟨h2, List.chain'_singleton _, ?_⟩
          intro x hx y hy
          simp only [List.head?_cons, Option.mem_def, Option.some.injEq] at hy
          subst hy
          have hx7 := h7 x hx
          refine ⟨?_, ?_, ?_⟩
          · show s.start ≤ x.end_page + 1
            exact hx7.1
          · show x.end_page < p - 1
            omega
          · show x.end_page + 1 - s.start ≤ 10
            exact hx7.2.1
        · simp only [List.map_append, List.map_cons, List.map_nil,
            List.length_append, List.length_cons, List.length_nil, h3, h4,
            List.range_succ]
        · simp only [List.length_append, List.length_cons, List.length_nil, h4]
        · intro habs
          simp at habs
        · intro b0 hb0
          cases hch : s.chunks with
          | nil =>
            rw [hch] at hb0
            simp only [List.nil_append, List.head?_cons,
              Option.some.injEq] at hb0
            rw [← hb0]
            exact h5 hch
          | cons x xs =>
            rw [hch] at hb0
            simp only [List.cons_append, List.head?_cons,
              Option.some.injEq] at hb0
            apply h6
            rw [hch, ← hb0]
            rfl
        · intro bl hbl
          rw [List.getLast?_concat] at hbl
          injection hbl with hbl
          subst hbl
          refine ⟨?_, ?_, ?_⟩
          · show (hyWalk all ovTok s.start p 0 0).1 ≤ p - 1 + 1
            omega
          · show p - 1 + 1 - (hyWalk all ovTok s.start p 0 0).1 ≤ 10
            omega
          · show p - 1 + 2 ≤ p + 1
            omega
        · omega
        · omega
        · omega
        · intro _
          omega
      have hnext := ih (p + 1) _ hnew
      rw [hlen] at hnext
      exact hnext
    · rw [if_neg hc]
      have hcap : s.curPages + 1 ≤ maxPages := by
        by_cases h0 : 0 < s.curPages
        · have hlt : s.curPages < maxPages := by
            by_contra hx
            push_neg at hx
            exact hc (Or.inr ⟨hx, h0⟩)
          omega
        · omega
      have hnew : hyInv maxPages (p + 1)
          ⟨s.chunks, s.start, s.curTok + t, s.curPages + 1, s.idx⟩ := by
        apply hyInv_intro
        · exact h1
        · exact h2
        · exact h3
        · exact h4
        · exact h5
        · exact h6
        · intro bl hbl
          have := h7 bl hbl
          exact ⟨this.1, this.2.1, by omega⟩
        · omega
        · omega
        · exact hcap
        · intro _
          omega
      have hnext := ih (p + 1) _ hnew
      rw [hlen] at hnext
      exact hnext

/-- The starting state satisfies the hybrid invariant. -/
theorem hyInv_initial (maxPages : Nat) : hyInv maxPages 0 ⟨[], 0, 0, 0, 0⟩ := by
  apply hyInv_intro
  · intro b hb
    simp at hb
  · exact List.chain'_nil
  · rfl
  · rfl
  · intro _
    rfl
  · intro b0 hb0
    simp at hb0
  · intro bl hbl
    simp at hbl
  · rfl
  · exact Nat.le_refl 0
  · exact Nat.zero_le _
  · intro h
    exact absurd h (by omega)

/-- Shared properties of appending the final chunk (both exits of the re-split
loop append `(idx, start, n-1, curPages, curTok, final_chunk)`). -/
theorem hyFinal_spec (all : List Nat) (maxPages : Nat) (chunks : List HYBoundary)
    (start curTok curPages idx : Nat)
    (hcap : curPages ≤ maxPages)
    (h1 : ∀ b ∈ chunks, b.page_count ≤ maxPages)
    (h2 : List.Chain' hyRel chunks)
    (h3 : chunks.map (fun b => b.chunk_index) = List.range chunks.length)
    (h4 : idx = chunks.length)
    (h5 : chunks = [] → start = 0)
    (h6 : ∀ b0, chunks.head? = some b0 → b0.start_page = 0)
    (h7 : ∀ bl, chunks.getLast? = some bl →
      start ≤ bl.end_page + 1 ∧ bl.end_page + 1 - start ≤ 10 ∧
      bl.end_page + 2 ≤ all.length)
    (res : List HYBoundary)
    (hres : res = chunks ++ [⟨idx, start, all.length - 1, curPages, curTok,
      FinalizeReason.final_chunk⟩]) :
    (∀ b ∈ res, b.page_count ≤ maxPages) ∧
    List.Chain' hyRel res ∧
    res.map (fun b => b.chunk_index) = List.range res.length ∧
    res ≠ [] ∧
    (∀ b0, res.head? = some b0 → b0.start_page = 0) ∧
    (∀ bl, res.getLast? = some bl → bl.end_page = all.length - 1) := by
  subst hres
  refine ⟨?_, ?_, ?_, ?_, ?_, ?_⟩
  · intro b hb
    rcases List.mem_append.mp hb with hb | hb
    · exact h1 b hb
    · simp only [List.mem_singleton] at hb
      subst hb
      exact hcap
  · rw [List.chain'_append]
    refine ⟨h2, List.chain'_singleton _, ?_⟩
    intro x hx y hy
    simp only [List.head?_cons, Option.mem_def, Option.some.injEq] at hy
    subst hy
    have hx7 := h7 x hx
    refine ⟨?_, ?_, ?_⟩
    · show start ≤ x.end_page + 1
      exact hx7.1
    · show x.end_page < all.length - 1
      omega
    · show x.end_page + 1 - start ≤ 10
      exact hx7.2.1
  · simp only [List.map_append, List.map_cons, List.map_nil,
      List.length_append, List.length_cons, List.length_nil, h3, h4,
      List.range_succ]
  · intro habs
    simp at habs
  · intro b0 hb0
    cases hch : chunks with
    | nil =>
      rw [hch] at hb0
      simp only [List.nil_append, List.head?_cons, Option.some.injEq] at hb0
      rw [← hb0]
      exact h5 hch
    | cons x xs =>
      rw [hch] at hb0
      simp only [List.cons_append, List.head?_cons, Option.some.injEq] at hb0
      apply h6
      rw [hch, ← hb0]
      rfl
  · intro bl hbl
    rw [List.getLast?_concat] at hbl
    injection hbl with hbl
    subst hbl
    rfl

/-- The re-split loop terminates and preserves the chunk-list properties when
`maxPages ≥ 11`: each iteration advances the chunk start by at least
`maxPages - 10` pages (the walk-back is capped at 10 pages), so fuel
`≥ remaining pages - maxPages` suffices. -/
theorem hyResplit_spec (all : List Nat) (maxPages ovTok : Nat) (hmp : 11 ≤ maxPages) :
    ∀ (fuel : Nat) (chunks : List HYBoundary) (start curTok curPages idx : Nat),
      all.length - start ≤ fuel + maxPages →
      curPages = all.length - start →
      start ≤ all.length →
      (∀ b ∈ chunks, b.page_count ≤ maxPages) →
      List.Chain' hyRel chunks →
      chunks.map (fun b => b.chunk_index) = List.range chunks.length →
      idx = chunks.length →
      (chunks = [] → start = 0) →
      (∀ b0, chunks.head? = some b0 → b0.start_page = 0) →
      (∀ bl, chunks.getLast? = some bl →
        start ≤ bl.end_page + 1 ∧ bl.end_page + 1 - start ≤ 10 ∧
        bl.end_page + 2 ≤ all.length) →
      ∃ bs, hyResplit all maxPages ovTok fuel chunks start curTok curPages idx =
          some bs ∧
        (∀ b ∈ bs, b.page_count ≤ maxPages) ∧
        List.Chain' hyRel bs ∧
        bs.map (fun b => b.chunk_index) = List.range bs.length ∧
        bs ≠ [] ∧
        (∀ b0, bs.head? = some b0 → b0.start_page = 0) ∧
        (∀ bl, bs.getLast? = some bl → bl.end_page = all.length - 1) := by
  intro fuel
  induction fuel with
  | zero =>
    intro chunks start curTok curPages idx hfuel hcp hsn h1 h2 h3 h4 h5 h6 h7
    rw [hyResplit]
    rw [if_neg (by omega)]
    exact ⟨_, rfl, hyFinal_spec all maxPages chunks start curTok curPages idx
      (by omega) h1 h2 h3 h4 h5 h6 h7 _ rfl⟩
  | succ fuel ih =>
    intro chunks start curTok curPages idx hfuel hcp hsn h1 h2 h3 h4 h5 h6 h7
    rw [hyResplit]
    by_cases hgt : maxPages < curPages
    · rw [if_pos hgt]
      have hn : start + maxPages < all.length := by omega
      have hofl : start ≤ start + maxPages - 1 + 1 := by omega
      have hws := hyWalk_spec all ovTok start (start + maxPages - 1 + 1) 0 0 hofl
        (by omega)
      obtain ⟨hw1, hw2, hw3, hw4, hw5⟩ := hws
      apply ih
      · omega
      · rfl
      · omega
      · intro b hb
        rcases List.mem_append.mp hb with hb | hb
        · exact h1 b hb
        · simp only [List.mem_singleton] at hb
          subst hb
          exact Nat.le_refl _
      · rw [List.chain'_append]
        refine ⟨h2, List.chain'_singleton _, ?_⟩
        intro x hx y hy
        simp only [List.head?_cons, Option.mem_def, Option.some.injEq] at hy
        subst hy
        have hx7 := h7 x hx
        refine ⟨?_, ?_, ?_⟩
        · show start ≤ x.end_page + 1
          exact hx7.1
        · show x.end_page < start + maxPages - 1
          omega
        · show x.end_page + 1 - start ≤ 10
          exact hx7.2.1
      · simp only [List.map_append, List.map_cons, List.map_nil,
          List.length_append, List.length_cons, List.length_nil, h3, h4,
          List.range_succ]
      · simp only [List.length_append, List.length_cons, List.length_nil, h4]
      · intro habs
        simp at habs
      · intro b0 hb0
        cases hch : chunks with
        | nil =>
          rw [hch] at hb0
          simp only [List.nil_append, List.head?_cons, Option.some.injEq] at hb0
          rw [← hb0]
          exact h5 hch
        | cons x xs =>
          rw [hch] at hb0
          simp only [List.cons_append, List.head?_cons, Option.some.injEq] at hb0
          apply h6
          rw [hch, ← hb0]
          rfl
      · intro bl hbl
        rw [List.getLast?_concat] at hbl
        injection hbl with hbl
        subst hbl
        refine ⟨?_, ?_, ?_⟩
        · show (hyWalk all ovTok start (start + maxPages - 1 + 1) 0 0).1 ≤
            start + maxPages - 1 + 1
          omega
        · show start + maxPages - 1 + 1 -
            (hyWalk all ovTok start (start + maxPages - 1 + 1) 0 0).1 ≤ 10
          omega
        · show start + maxPages - 1 + 2 ≤ all.length
          omega
    · rw [if_neg hgt]
      exact ⟨_, rfl, hyFinal_spec all maxPages chunks start curTok curPages idx
        (by omega) h1 h2 h3 h4 h5 h6 h7 _ rfl⟩

/-- Unfolding equation for `calculate_chunks_hybrid`. -/
theorem calculate_chunks_hybrid_eq (all : List Nat) (target maxPages ovTok : Nat) :
    calculate_chunks_hybrid all target maxPages ovTok =
      if 0 < (hyGo all target maxPages ovTok 0 all ⟨[], 0, 0, 0, 0⟩).curTok then
        hyResplit all maxPages ovTok (all.length + 1)
          (hyGo all target maxPages ovTok 0 all ⟨[], 0, 0, 0, 0⟩).chunks
          (hyGo all target maxPages ovTok 0 all ⟨[], 0, 0, 0, 0⟩).start
          (hyGo all target maxPages ovTok 0 all ⟨[], 0, 0, 0, 0⟩).curTok
          (hyGo all target maxPages ovTok 0 all ⟨[], 0, 0, 0, 0⟩).curPages
          (hyGo all target maxPages ovTok 0 all ⟨[], 0, 0, 0, 0⟩).idx
      else some (hyGo all target maxPages ovTok 0 all ⟨[], 0, 0, 0, 0⟩).chunks := rfl

/-! ## C9 : hybrid termination for maxPages > 10 -/

/-- C9: for `maxPagesPerChunk > 10` the hybrid calculator terminates: the
10-page cap on the overlap walk-back makes each trailing re-split iteration
advance the chunk start by at least `maxPages - 10 ≥ 1` pages, so the
remaining page count strictly decreases and fuel `length + 1` suffices. -/
theorem hybrid_terminates (all : List Nat) (target maxPages ovTok : Nat)
    (hmp : 10 < maxPages) :
    (calculate_chunks_hybrid all target maxPages ovTok).isSome := by
  rw [calculate_chunks_hybrid_eq]
  obtain ⟨h1, h2, h3, h4, h5, h6, h7, h8, h9, h10, h11⟩ :=
    hyGo_inv all target maxPages ovTok (by omega) all 0 ⟨[], 0, 0, 0, 0⟩
      (hyInv_initial maxPages)
  by_cases h0 : 0 < (hyGo all target maxPages ovTok 0 all ⟨[], 0, 0, 0, 0⟩).curTok
  · rw [if_pos h0]
    obtain ⟨bs, heq, _⟩ := hyResplit_spec all maxPages ovTok (by omega)
      (all.length + 1)
      (hyGo all target maxPages ovTok 0 all ⟨[], 0, 0, 0, 0⟩).chunks
      (hyGo all target maxPages ovTok 0 all ⟨[], 0, 0, 0, 0⟩).start
      (hyGo all target maxPages ovTok 0 all ⟨[], 0, 0, 0, 0⟩).curTok
      (hyGo all target maxPages ovTok 0 all ⟨[], 0, 0, 0, 0⟩).curPages
      (hyGo all target maxPages ovTok 0 all ⟨[], 0, 0, 0, 0⟩).idx
      (by omega) (by omega) (by omega) h1 h2 h3 h4 h5 h6
      (fun bl hbl => ⟨(h7 bl hbl).1, (h7 bl hbl).2.1, by
        have := (h7 bl hbl).2.2; omega⟩)
    rw [heq]
    rfl
  · rw [if_neg h0]
    rfl

/-- Witness for C9 at a concrete input. -/
theorem hybrid_terminates_witness :
    (calculate_chunks_hybrid [1, 1, 1] 1 11 5).isSome :=
  hybrid_terminates [1, 1, 1] 1 11 5 (by omega)

/-! ## C2 : hybrid page cap and overlap bound -/

/-- C2 (amended): for `maxPagesPerChunk > 10`, every boundary produced by the
hybrid calculator has `pageCount ≤ maxPagesPerChunk` and consecutive
boundaries share at most 10 pages.  (For `maxPagesPerChunk ≤ 10` the overlap
walk-back can jump the running page count past the cap.) -/
theorem hybrid_respects_page_cap_and_overlap (all : List Nat)
    (target maxPages ovTok : Nat) (hmp : 10 < maxPages) :
    ∀ bs, calculate_chunks_hybrid all target maxPages ovTok = some bs →
      (∀ b ∈ bs, b.page_count ≤ maxPages) ∧
      List.Chain' (fun b b2 => b.end_page + 1 - b2.start_page ≤ 10) bs := by
  intro bs hbs
  rw [calculate_chunks_hybrid_eq] at hbs
  obtain ⟨h1, h2, h3, h4, h5, h6, h7, h8, h9, h10, h11⟩ :=
    hyGo_inv all target maxPages ovTok (by omega) all 0 ⟨[], 0, 0, 0, 0⟩
      (hyInv_initial maxPages)
  by_cases h0 : 0 < (hyGo all target maxPages ovTok 0 all ⟨[], 0, 0, 0, 0⟩).curTok
  · rw [if_pos h0] at hbs
    obtain ⟨bs2, heq, hp1, hp2, _⟩ := hyResplit_spec all maxPages ovTok (by omega)
      (all.length + 1)
      (hyGo all target maxPages ovTok 0 all ⟨[], 0, 0, 0, 0⟩).chunks
      (hyGo all target maxPages ovTok 0 all ⟨[], 0, 0, 0, 0⟩).start
      (hyGo all target maxPages ovTok 0 all ⟨[], 0, 0, 0, 0⟩).curTok
      (hyGo all target maxPages ovTok 0 all ⟨[], 0, 0, 0, 0⟩).curPages
      (hyGo all target maxPages ovTok 0 all ⟨[], 0, 0, 0, 0⟩).idx
      (by omega) (by omega) (by omega) h1 h2 h3 h4 h5 h6
      (fun bl hbl => ⟨(h7 bl hbl).1, (h7 bl hbl).2.1, by
        have := (h7 bl hbl).2.2; omega⟩)
    rw [heq] at hbs
    injection hbs with hbs
    subst hbs
    exact ⟨hp1, hp2.imp fun a b hab => hab.2.2⟩
  · rw [if_neg h0] at hbs
    injection hbs with hbs
    subst hbs
    exact ⟨h1, h2.imp fun a b hab => hab.2.2⟩

/-- Witness for C2 on a concrete input. -/
theorem hybrid_respects_page_cap_and_overlap_witness :
    (∀ b ∈ (calculate_chunks_hybrid [1, 1, 1] 1 11 5).getD [], b.page_count ≤ 11) ∧
    List.Chain' (fun b b2 => b.end_page + 1 - b2.start_page ≤ 10)
      ((calculate_chunks_hybrid [1, 1, 1] 1 11 5).getD []) := by
  exact hybrid_respects_page_cap_and_overlap [1, 1, 1] 1 11 5 (by omega)
    ((calculate_chunks_hybrid [1, 1, 1] 1 11 5).getD []) (by rfl)

/-- C2 counterexample: with `maxPagesPerChunk = 2` (≤ 10) the hybrid
calculator emits a boundary with `page_count = 3 > 2`: the overlap walk-back
restarts the running chunk with more pages than the cap. -/
theorem hybrid_page_cap_counterexample :
    (calculate_chunks_hybrid [1, 1, 1, 5, 5] 100 2 3).isSome = true ∧
    ∃ b ∈ (calculate_chunks_hybrid [1, 1, 1, 5, 5] 100 2 3).getD [],
      2 < b.page_count := by
  decide

/-! ## C3 : coverage lemmas -/

theorem chain_cover_aux :
    ∀ (tl : List (Nat × Nat)) (r0 : Nat × Nat),
      List.Chain' boundaryRel (r0 :: tl) →
      ∀ q, r0.1 ≤ q → q ≤ ((r0 :: tl).getLastD (0, 0)).2 →
        ∃ r ∈ r0 :: tl, r.1 ≤ q ∧ q ≤ r.2 := by
  intro tl
  induction tl with
  | nil =>
    intro r0 _ q hq1 hq2
    exact ⟨r0, List.mem_cons_self _ _, hq1, by simpa using hq2⟩
  | cons r1 tl ih =>
    intro r0 hch q hq1 hq2
    rcases List.chain'_cons.mp hch with ⟨hrel, hch2⟩
    by_cases hle : q ≤ r0.2
    · exact ⟨r0, List.mem_cons_self _ _, hq1, hle⟩
    · have hq1b : r1.1 ≤ q := by
        have := hrel.1
        omega
      have hq2b : q ≤ ((r1 :: tl).getLastD (0, 0)).2 := by
        rw [List.getLastD_cons, List.getLastD_cons] at hq2
        rw [List.getLastD_cons]
        exact hq2
      obtain ⟨r, hr, hr1, hr2⟩ := ih r1 hch2 q hq1b hq2b
      exact ⟨r, List.mem_cons_of_mem _ hr, hr1, hr2⟩

theorem coverage_from_chain (rs : List (Nat × Nat)) (n : Nat) (hne : rs ≠ [])
    (hhead : (rs.headD (0, 0)).1 = 0)
    (hlast : (rs.getLastD (0, 0)).2 = n - 1)
    (hchain : List.Chain' boundaryRel rs) : rangesCover rs n := by
  intro q hq
  obtain ⟨r0, tl, rfl⟩ := List.exists_cons_of_ne_nil hne
  have h0 : r0.1 = 0 := by simpa using hhead
  exact chain_cover_aux tl r0 hchain q (by omega) (by rw [hlast]; omega)

theorem chain_getD (rs : List (Nat × Nat)) (h : List.Chain' boundaryRel rs) :
    ∀ i, i + 1 < rs.length →
      boundaryRel (rs.getD i (0, 0)) (rs.getD (i + 1) (0, 0)) := by
  intro i hi
  have h2 := List.chain'_iff_get.mp h i (by omega)
  rw [List.getD_eq_get rs (0, 0) (show i < rs.length by omega),
    List.getD_eq_get rs (0, 0) hi]
  exact h2

theorem chain_ends_mono (rs : List (Nat × Nat)) (h : List.Chain' boundaryRel rs) :
    ∀ i j, i ≤ j → j < rs.length →
      (rs.getD i (0, 0)).2 ≤ (rs.getD j (0, 0)).2 := by
  intro i j hij
  induction j, hij using Nat.le_induction with
  | base =>
    intro _
    exact Nat.le_refl _
  | succ j hij ih =>
    intro hj
    have h1 := ih (by omega)
    have h2 := chain_getD rs h j (by omega)
    exact le_trans h1 (Nat.le_of_lt h2.2)

theorem confined_from_chain (rs : List (Nat × Nat))
    (hchain : List.Chain' boundaryRel rs) : overlapConfined rs := by
  intro i j q hij hj hqi1 hqi2 hqj1 hqj2
  have := chain_ends_mono rs hchain i (j - 1) (by omega) (by omega)
  omega

/-! ## C3 : token-based structural invariant -/

theorem tbWalk_spec (all : List Nat) (ovTok floor : Nat) :
    ∀ (o acc : Nat), floor ≤ o →
      floor ≤ (tbWalk all ovTok floor o acc).1 ∧
        (tbWalk all ovTok floor o acc).1 ≤ o := by
  intro o
  induction o with
  | zero =>
    intro acc hf
    exact ⟨hf, Nat.le_refl _⟩
  | succ o ih =>
    intro acc hf
    rw [tbWalk]
    by_cases hc : floor < o + 1 ∧ acc < ovTok
    · rw [if_pos hc]
      have h := ih (acc + all.getD o 0) (by omega)
      exact ⟨h.1, by omega⟩
    · rw [if_neg hc]
      exact ⟨hf, Nat.le_refl _⟩

/-- Introduction rule for `tbInv` on an explicit state record. -/
theorem tbInv_intro (p : Nat) (chunks : List TBBoundary) (start curTok idx : Nat)
    (c1 : List.Chain' boundaryRel (chunks.map tbRange))
    (c2 : chunks.map (fun b => b.chunk_index) = List.range chunks.length)
    (c3 : idx = chunks.length)
    (c4 : chunks = [] → start = 0)
    (c5 : ∀ b0, chunks.head? = some b0 → b0.start_page = 0)
    (c6 : ∀ bl, chunks.getLast? = some bl →
      start ≤ bl.end_page + 1 ∧ bl.end_page + 2 ≤ p)
    (c7 : start ≤ p)
    (c8 : 0 < curTok → start < p)
    (c9 : curTok = 0 → start = p) :
    tbInv p ⟨chunks, start, curTok, idx⟩ :=
  ⟨c1, c2, c3, c4, c5, c6, c7, c8, c9⟩

/-- The token-based main loop preserves `tbInv` (for positive page token
counts) and ends with positive accumulated tokens when it sees any page. -/
theorem tbGo_chain (all : List Nat) (maxTok ovTok : Nat) :
    ∀ (rest : List Nat) (p : Nat) (s : TBState),
      (∀ t ∈ rest, 0 < t) →
      tbInv p s →
      tbInv (p + rest.length) (tbGo all maxTok ovTok p rest s) ∧
      ((rest = [] → 0 < s.curTok) → 0 < (tbGo all maxTok ovTok p rest s).curTok) := by
  intro rest
  induction rest with
  | nil =>
    intro p s _ h
    constructor
    · simpa [tbGo] using h
    · intro hp
      simpa [tbGo] using hp rfl
  | cons t rest ih =>
    intro p s hpos h
    obtain ⟨h1, h2, h3, h4, h5, h6, h7, h8, h9⟩ := h
    have hpt : 0 < t := hpos t (List.mem_cons_self _ _)
    have hposr : ∀ x ∈ rest, 0 < x := fun x hx => hpos x (List.mem_cons_of_mem _ hx)
    have hlen : p + 1 + rest.length = p + (t :: rest).length := by
      simp only [List.length_cons]; omega
    rw [tbGo]
    by_cases hc : maxTok < s.curTok + t ∧ 0 < s.curTok
    · rw [if_pos hc]
      have hp1 : 1 ≤ p := by
        have := h8 hc.2
        omega
      have hwsp := tbWalk_spec all ovTok s.start p 0 h7
      have hnew : tbInv (p + 1)
          ⟨s.chunks ++ [⟨s.idx, s.start, p - 1, p - s.start, s.curTok⟩],
           (tbWalk all ovTok s.start p 0).1,
           (tbWalk all ovTok s.start p 0).2 + t, s.idx + 1⟩ := by
        apply tbInv_intro
        · rw [List.map_append, List.chain'_append]
          refine ⟨h1, ?_, ?_⟩
          · exact List.chain'_singleton _
          · intro x hx y hy
            simp only [List.map_cons, List.map_nil, List.head?_cons,
              Option.mem_def, Option.some.injEq] at hy
            subst hy
            rw [List.getLast?_map] at hx
            simp only [Option.mem_def, Option.map_eq_some'] at hx
            obtain ⟨bl, hbl, hblx⟩ := hx
            have hx6 := h6 bl hbl
            subst hblx
            constructor
            · show s.start ≤ bl.end_page + 1
              exact hx6.1
            · show bl.end_page < p - 1
              omega
        · simp only [List.map_append, List.map_cons, List.map_nil,
            List.length_append, List.length_cons, List.length_nil, h2, h3,
            List.range_succ]
        · simp only [List.length_append, List.length_cons, List.length_nil, h3]
        · intro habs
          simp at habs
        · intro b0 hb0
          cases hch : s.chunks with
          | nil =>
            rw [hch] at hb0
            simp only [List.nil_append, List.head?_cons, Option.some.injEq] at hb0
            rw [← hb0]
            exact h4 hch
          | cons x xs =>
            rw [hch] at hb0
            simp only [List.cons_append, List.head?_cons, Option.some.injEq] at hb0
            apply h5
            rw [hch, ← hb0]
            rfl
        · intro bl hbl
          rw [List.getLast?_concat] at hbl
          injection hbl with hbl
          subst hbl
          constructor
          · show (tbWalk all ovTok s.start p 0).1 ≤ p - 1 + 1
            omega
          · show p - 1 + 2 ≤ p + 1
            omega
        · omega
        · intro _
          omega
        · intro habs
          omega
      have hnext := ih (p + 1) _ hposr hnew
      rw [hlen] at hnext
      refine ⟨hnext.1, ?_⟩
      intro _
      apply hnext.2
      intro _
      show 0 < (tbWalk all ovTok s.start p 0).2 + t
      omega
    · rw [if_neg hc]
      have hnew : tbInv (p + 1) ⟨s.chunks, s.start, s.curTok + t, s.idx⟩ := by
        apply tbInv_intro
        · exact h1
        · exact h2
        · exact h3
        · exact h4
        · exact h5
        · intro bl hbl
          have := h6 bl hbl
          exact ⟨this.1, by omega⟩
        · omega
        · intro _
          omega
        · intro habs
          omega
      have hnext := ih (p + 1) _ hposr hnew
      rw [hlen] at hnext
      refine ⟨hnext.1, ?_⟩
      intro _
      apply hnext.2
      intro _
      show 0 < s.curTok + t
      omega

theorem getLast?_of_ne_nil {α : Type} (l : List α) (h : l ≠ []) :
    ∃ a, l.getLast? = some a := by
  rcases List.eq_nil_or_concat l with rfl | ⟨l2, a, rfl⟩
  · exact absurd rfl h
  · rw [List.concat_eq_append]
    exact ⟨a, List.getLast?_concat _⟩

/-- Appending a final range `(st, n-1)` to a well-formed prefix yields the
full coverage bundle. -/
theorem coverageSpec_append (rs0 : List (Nat × Nat)) (idxs0 : List Nat)
    (n st : Nat)
    (hchain : List.Chain' boundaryRel rs0)
    (hidx : idxs0 = List.range idxs0.length)
    (hhead : ∀ r0, rs0.head? = some r0 → r0.1 = 0)
    (hlast : ∀ rl, rs0.getLast? = some rl → st ≤ rl.2 + 1 ∧ rl.2 + 2 ≤ n)
    (hempty : rs0 = [] → st = 0)
    (hn : 0 < n) :
    coverageSpec (rs0 ++ [(st, n - 1)]) (idxs0 ++ [idxs0.length]) n := by
  have hchain2 : List.Chain' boundaryRel (rs0 ++ [(st, n - 1)]) := by
    rw [List.chain'_append]
    refine ⟨hchain, List.chain'_singleton _, ?_⟩
    intro x hx y hy
    simp only [List.head?_cons, Option.mem_def, Option.some.injEq] at hy
    subst hy
    have hx2 := hlast x hx
    exact ⟨by omega, by omega⟩
  have hhead2 : (( rs0 ++ [(st, n - 1)]).headD (0, 0)).1 = 0 := by
    cases rs0 with
    | nil =>
      simp only [List.nil_append, List.headD_cons]
      exact hempty rfl
    | cons r0 tl =>
      simp only [List.cons_append, List.headD_cons]
      exact hhead r0 rfl
  have hlast2 : ((rs0 ++ [(st, n - 1)]).getLastD (0, 0)).2 = n - 1 := by
    rw [List.getLastD_eq_getLast?, List.getLast?_concat]
    rfl
  refine ⟨by simp, ?_, hhead2, hlast2, hchain2, ?_, ?_⟩
  · rw [List.length_append, List.length_cons, List.length_nil,
      List.range_succ, ← hidx]
  · exact coverage_from_chain _ n (by simp) hhead2 hlast2 hchain2
  · exact confined_from_chain _ hchain2

/-! ## C3 : token-based coverage -/

theorem tbInv_initial : tbInv 0 ⟨[], 0, 0, 0⟩ := by
  apply tbInv_intro
  · exact List.chain'_nil
  · rfl
  · rfl
  · intro _
    rfl
  · intro b0 hb0
    simp at hb0
  · intro bl hbl
    simp at hbl
  · exact Nat.le_refl 0
  · intro h
    exact absurd h (by omega)
  · intro _
    rfl

/-- Unfolding equation for `calculate_chunks_token_based`. -/
theorem calculate_chunks_token_based_eq (all : List Nat) (maxTok ovTok : Nat) :
    calculate_chunks_token_based all maxTok ovTok =
      if 0 < (tbGo all maxTok ovTok 0 all ⟨[], 0, 0, 0⟩).curTok then
        (tbGo all maxTok ovTok 0 all ⟨[], 0, 0, 0⟩).chunks ++
          [⟨(tbGo all maxTok ovTok 0 all ⟨[], 0, 0, 0⟩).idx,
            (tbGo all maxTok ovTok 0 all ⟨[], 0, 0, 0⟩).start,
            all.length - 1,
            all.length - (tbGo all maxTok ovTok 0 all ⟨[], 0, 0, 0⟩).start,
            (tbGo all maxTok ovTok 0 all ⟨[], 0, 0, 0⟩).curTok⟩]
      else (tbGo all maxTok ovTok 0 all ⟨[], 0, 0, 0⟩).chunks := rfl

theorem token_based_coverage (all : List Nat) (maxTok ovTok : Nat)
    (hne : all ≠ []) (hpos : ∀ t ∈ all, 0 < t) :
    coverageSpec ((calculate_chunks_token_based all maxTok ovTok).map tbRange)
      ((calculate_chunks_token_based all maxTok ovTok).map fun b => b.chunk_index)
      all.length := by
  obtain ⟨⟨h1, h2, h3, h4, h5, h6, h7, h8, h9⟩, hposc⟩ :=
    tbGo_chain all maxTok ovTok all 0 ⟨[], 0, 0, 0⟩ hpos tbInv_initial
  have hct : 0 < (tbGo all maxTok ovTok 0 all ⟨[], 0, 0, 0⟩).curTok :=
    hposc fun habs => absurd habs hne
  rw [calculate_chunks_token_based_eq, if_pos hct]
  set g := tbGo all maxTok ovTok 0 all ⟨[], 0, 0, 0⟩ with hg
  have hmapr : (g.chunks ++
      [(⟨g.idx, g.start, all.length - 1, all.length - g.start,
        g.curTok⟩ : TBBoundary)]).map tbRange =
      g.chunks.map tbRange ++ [(g.start, all.length - 1)] := by
    rw [List.map_append]
    rfl
  have hmapi : (g.chunks ++
      [(⟨g.idx, g.start, all.length - 1, all.length - g.start,
        g.curTok⟩ : TBBoundary)]).map (fun b => b.chunk_index) =
      (g.chunks.map (fun b => b.chunk_index)) ++
        [(g.chunks.map (fun b => b.chunk_index)).length] := by
    rw [List.map_append, List.length_map, ← h3]
    rfl
  rw [hmapr, hmapi]
  apply coverageSpec_append
  · exact h1
  · rw [List.length_map]
    exact h2
  · intro r0 hr0
    rw [List.head?_map] at hr0
    rcases hmem : g.chunks.head? with _ | b0
    · rw [hmem] at hr0
      simp at hr0
    · rw [hmem] at hr0
      simp only [Option.map_some', Option.some.injEq] at hr0
      rw [← hr0]
      exact h5 b0 hmem
  · intro rl hrl
    rw [List.getLast?_map] at hrl
    rcases hmem : g.chunks.getLast? with _ | bl
    · rw [hmem] at hrl
      simp at hrl
    · rw [hmem] at hrl
      simp only [Option.map_some', Option.some.injEq] at hrl
      have h6b := h6 bl hmem
      rw [← hrl]
      refine ⟨?_, ?_⟩
      · show g.start ≤ bl.end_page + 1
        exact h6b.1
      · show bl.end_page + 2 ≤ all.length
        have := h6b.2
        omega
  · intro hmape
    rw [List.map_eq_nil_iff] at hmape
    exact h4 hmape
  · exact List.length_pos.mpr hne

/-! ## C3 : fixed-pages coverage -/

theorem fpGo_spec (total chunkSize ovPages : Nat) (hcs : 0 < chunkSize) :
    ∀ (fuel current cIdx : Nat) (acc : List FPBoundary),
      total - current ≤ fuel →
      current ≤ total →
      List.Chain' boundaryRel (acc.map fpRange) →
      acc.map (fun b => b.chunk_index) = List.range acc.length →
      cIdx = acc.length →
      (∀ b0, acc.head? = some b0 → b0.start_page = 0) →
      (∀ bl, acc.getLast? = some bl → bl.end_page + 1 = current) →
      ∃ res, fpGo total chunkSize ovPages fuel current cIdx acc = some res ∧
        List.Chain' boundaryRel (res.map fpRange) ∧
        res.map (fun b => b.chunk_index) = List.range res.length ∧
        (∀ b0, res.head? = some b0 → b0.start_page = 0) ∧
        (∀ bl, res.getLast? = some bl → bl.end_page + 1 = total) ∧
        ((acc ≠ [] ∨ current < total) → res ≠ []) := by
  intro fuel
  induction fuel with
  | zero =>
    intro current cIdx acc hfuel hct hchain hidx hcidx hhead hlast
    rw [fpGo]
    have hnlt : ¬ current < total := by omega
    rw [if_neg hnlt]
    refine ⟨acc, rfl, hchain, hidx, hhead, ?_, ?_⟩
    · intro bl hbl
      have := hlast bl hbl
      omega
    · intro hg
      rcases hg with hg | hg
      · exact hg
      · exact absurd hg hnlt
  | succ fuel ih =>
    intro current cIdx acc hfuel hct hchain hidx hcidx hhead hlast
    rw [fpGo]
    by_cases hlt : current < total
    · rw [if_pos hlt]
      have hend : current + 1 ≤ min (current + chunkSize) total := by omega
      have hsple : (if 0 < cIdx then current - ovPages else 0) ≤ current := by
        split
        · omega
        · omega
      have hchain2 : List.Chain' boundaryRel
          ((acc ++ [(⟨cIdx, if 0 < cIdx then current - ovPages else 0,
            min (current + chunkSize) total - 1,
            min (current + chunkSize) total - 1 + 1 -
              (if 0 < cIdx then current - ovPages else 0)⟩ :
            FPBoundary)]).map fpRange) := by
        rw [List.map_append, List.chain'_append]
        refine ⟨hchain, List.chain'_singleton _, ?_⟩
        intro x hx y hy
        simp only [List.map_cons, List.map_nil, List.head?_cons,
          Option.mem_def, Option.some.injEq] at hy
        subst hy
        rw [List.getLast?_map] at hx
        simp only [Option.mem_def, Option.map_eq_some'] at hx
        obtain ⟨bl, hbl, hblx⟩ := hx
        have hx6 := hlast bl hbl
        subst hblx
        constructor
        · show (if 0 < cIdx then current - ovPages else 0) ≤ bl.end_page + 1
          omega
        · show bl.end_page < min (current + chunkSize) total - 1
          omega
      have hidx2 : (acc ++ [(⟨cIdx, if 0 < cIdx then current - ovPages else 0,
            min (current + chunkSize) total - 1,
            min (current + chunkSize) total - 1 + 1 -
              (if 0 < cIdx then current - ovPages else 0)⟩ :
            FPBoundary)]).map (fun b => b.chunk_index) =
          List.range (acc ++ [(⟨cIdx,
            if 0 < cIdx then current - ovPages else 0,
            min (current + chunkSize) total - 1,
            min (current + chunkSize) total - 1 + 1 -
              (if 0 < cIdx then current - ovPages else 0)⟩ :
            FPBoundary)]).length := by
        simp only [List.map_append, List.map_cons, List.map_nil,
          List.length_append, List.length_cons, List.length_nil, hidx, hcidx,
          List.range_succ]
      have hhead2 : ∀ b0, (acc ++ [(⟨cIdx,
            if 0 < cIdx then current - ovPages else 0,
            min (current + chunkSize) total - 1,
            min (current + chunkSize) total - 1 + 1 -
              (if 0 < cIdx then current - ovPages else 0)⟩ :
            FPBoundary)]).head? = some b0 → b0.start_page = 0 := by
        intro b0 hb0
        cases hch : acc with
        | nil =>
          rw [hch] at hb0
          simp only [List.nil_append, List.head?_cons, Option.some.injEq] at hb0
          rw [← hb0]
          show (if 0 < cIdx then current - ovPages else 0) = 0
          have hc0 : cIdx = 0 := by
            rw [hcidx, hch]
            rfl
          rw [hc0]
          rfl
        | cons x xs =>
          rw [hch] at hb0
          simp only [List.cons_append, List.head?_cons, Option.some.injEq] at hb0
          apply hhead
          rw [hch, ← hb0]
          rfl
      have hlast2 : ∀ bl, (acc ++ [(⟨cIdx,
            if 0 < cIdx then current - ovPages else 0,
            min (current + chunkSize) total - 1,
            min (current + chunkSize) total - 1 + 1 -
              (if 0 < cIdx then current - ovPages else 0)⟩ :
            FPBoundary)]).getLast? = some bl →
          bl.end_page + 1 = min (current + chunkSize) total - 1 + 1 := by
        intro bl hbl
        rw [List.getLast?_concat] at hbl
        injection hbl with hbl
        subst hbl
        rfl
      obtain ⟨res, heq, hp1, hp2, hp3, hp4, hp5⟩ :=
        ih (min (current + chunkSize) total - 1 + 1) (cIdx + 1)
          (acc ++ [⟨cIdx, if 0 < cIdx then current - ovPages else 0,
            min (current + chunkSize) total - 1,
            min (current + chunkSize) total - 1 + 1 -
              (if 0 < cIdx then current - ovPages else 0)⟩])
          (by omega) (by omega) hchain2 hidx2
          (by simp only [List.length_append, List.length_cons,
            List.length_nil, hcidx]) hhead2 hlast2
      exact ⟨res, heq, hp1, hp2, hp3, hp4, fun _ => hp5 (Or.inl (by simp))⟩
    · rw [if_neg hlt]
      refine ⟨acc, rfl, hchain, hidx, hhead, ?_, ?_⟩
      · intro bl hbl
        have := hlast bl hbl
        omega
      · intro hg
        rcases hg with hg | hg
        · exact hg
        · exact absurd hg hlt

theorem fixed_pages_coverage (total chunkSize ovPages : Nat)
    (htot : 0 < total) (hcs : 0 < chunkSize) :
    ∃ bs, calculate_chunks_fixed_pages total chunkSize ovPages = some bs ∧
      coverageSpec (bs.map fpRange) (bs.map fun b => b.chunk_index) total := by
  obtain ⟨res, heq, hp1, hp2, hp3, hp4, hp5⟩ :=
    fpGo_spec total chunkSize ovPages hcs (total + 1) 0 0 []
      (by omega) (by omega) List.chain'_nil rfl rfl
      (by intro b0 hb0; simp at hb0) (by intro bl hbl; simp at hbl)
  have hne : res ≠ [] := hp5 (Or.inr htot)
  refine ⟨res, heq, ?_, ?_, ?_, ?_, hp1, ?_, ?_⟩
  · intro habs
    rw [List.map_eq_nil_iff] at habs
    exact hne habs
  · rw [List.length_map]
    exact hp2
  · obtain ⟨r0, tl, hr0⟩ := List.exists_cons_of_ne_nil hne
    rw [hr0]
    simp only [List.map_cons, List.headD_cons]
    exact hp3 r0 (by rw [hr0]; rfl)
  · obtain ⟨bl, hbl⟩ := getLast?_of_ne_nil res hne
    rw [List.getLastD_eq_getLast?, List.getLast?_map, hbl]
    simp only [Option.map_some', Option.getD_some]
    have := hp4 bl hbl
    show bl.end_page = total - 1
    omega
  · apply coverage_from_chain _ _ (by
      intro habs
      rw [List.map_eq_nil_iff] at habs
      exact hne habs) ?_ ?_ hp1
    · obtain ⟨r0, tl, hr0⟩ := List.exists_cons_of_ne_nil hne
      rw [hr0]
      simp only [List.map_cons, List.headD_cons]
      exact hp3 r0 (by rw [hr0]; rfl)
    · obtain ⟨bl, hbl⟩ := getLast?_of_ne_nil res hne
      rw [List.getLastD_eq_getLast?, List.getLast?_map, hbl]
      simp only [Option.map_some', Option.getD_some]
      have := hp4 bl hbl
      show bl.end_page = total - 1
      omega
  · exact confined_from_chain _ hp1

/-! ## C3 : hybrid coverage -/

theorem hyGo_pos (all : List Nat) (target maxPages ovTok : Nat) :
    ∀ (rest : List Nat) (p : Nat) (s : HYState),
      (∀ t ∈ rest, 0 < t) → (rest = [] → 0 < s.curTok) →
      0 < (hyGo all target maxPages ovTok p rest s).curTok := by
  intro rest
  induction rest with
  | nil =>
    intro p s _ h
    simpa [hyGo] using h rfl
  | cons t rest ih =>
    intro p s hpos h
    have hpt : 0 < t := hpos t (List.mem_cons_self _ _)
    rw [hyGo]
    by_cases hc : (target < s.curTok + t ∧ 0 < s.curTok) ∨
        (maxPages ≤ s.curPages ∧ 0 < s.curPages)
    · rw [if_pos hc]
      apply ih
      · exact fun x hx => hpos x (List.mem_cons_of_mem _ hx)
      · intro _
        show 0 < (hyWalk all ovTok s.start p 0 0).2.1 + t
        omega
    · rw [if_neg hc]
      apply ih
      · exact fun x hx => hpos x (List.mem_cons_of_mem _ hx)
      · intro _
        show 0 < s.curTok + t
        omega

theorem hybrid_coverage (all : List Nat) (target maxPages ovTok : Nat)
    (hne : all ≠ []) (hpos : ∀ t ∈ all, 0 < t) (hmp : 10 < maxPages) :
    ∃ bs, calculate_chunks_hybrid all target maxPages ovTok = some bs ∧
      coverageSpec (bs.map hyRange) (bs.map fun b => b.chunk_index) all.length := by
  obtain ⟨h1, h2, h3, h4, h5, h6, h7, h8, h9, h10, h11⟩ :=
    hyGo_inv all target maxPages ovTok (by omega) all 0 ⟨[], 0, 0, 0, 0⟩
      (hyInv_initial maxPages)
  have hct := hyGo_pos all target maxPages ovTok all 0 ⟨[], 0, 0, 0, 0⟩ hpos
    (fun habs => absurd habs hne)
  rw [calculate_chunks_hybrid_eq, if_pos hct]
  obtain ⟨bs, heq, hp1, hp2, hp3, hp4, hp5, hp6⟩ := hyResplit_spec all maxPages ovTok
    (by omega) (all.length + 1)
    (hyGo all target maxPages ovTok 0 all ⟨[], 0, 0, 0, 0⟩).chunks
    (hyGo all target maxPages ovTok 0 all ⟨[], 0, 0, 0, 0⟩).start
    (hyGo all target maxPages ovTok 0 all ⟨[], 0, 0, 0, 0⟩).curTok
    (hyGo all target maxPages ovTok 0 all ⟨[], 0, 0, 0, 0⟩).curPages
    (hyGo all target maxPages ovTok 0 all ⟨[], 0, 0, 0, 0⟩).idx
    (by omega) (by omega) (by omega) h1 h2 h3 h4 h5 h6
    (fun bl hbl => ⟨(h7 bl hbl).1, (h7 bl hbl).2.1, by
      have := (h7 bl hbl).2.2; omega⟩)
  have hchainr : List.Chain' boundaryRel (bs.map hyRange) := by
    rw [List.chain'_map]
    exact hp2.imp fun a b hab => ⟨hab.1, hab.2.1⟩
  have hheadr : ((bs.map hyRange).headD (0, 0)).1 = 0 := by
    obtain ⟨b0, tl, hb0⟩ := List.exists_cons_of_ne_nil hp4
    rw [hb0]
    simp only [List.map_cons, List.headD_cons]
    exact hp5 b0 (by rw [hb0]; rfl)
  have hlastr : ((bs.map hyRange).getLastD (0, 0)).2 = all.length - 1 := by
    obtain ⟨bl, hbl⟩ := getLast?_of_ne_nil bs hp4
    rw [List.getLastD_eq_getLast?, List.getLast?_map, hbl]
    simp only [Option.map_some', Option.getD_some]
    exact hp6 bl hbl
  have hner : bs.map hyRange ≠ [] := by
    intro habs
    rw [List.map_eq_nil_iff] at habs
    exact hp4 habs
  refine ⟨bs, heq, hner, ?_, hheadr, hlastr, hchainr, ?_, ?_⟩
  · rw [List.length_map]
    exact hp3
  · exact coverage_from_chain _ _ hner hheadr hlastr hchainr
  · exact confined_from_chain _ hchainr

/-! ## C3 : the claim -/

/-- C3 (amended): for non-empty input and valid configuration — and, for the
TokenBased and Hybrid calculators, every page carrying a positive token
count, and for Hybrid `maxPagesPerChunk > 10` (so the re-split loop
terminates) — each calculator produces boundaries that cover every page,
with chunk indices 0,1,2,..., the first boundary starting at page 0, and
page duplication confined to the overlap with the previous chunk. -/
theorem calculators_cover_all_pages
    (total chunkSize ovPages : Nat) (htot : 0 < total) (hcs : 0 < chunkSize)
    (allTB : List Nat) (maxTok ovTokTB : Nat) (hTBne : allTB ≠ [])
    (hTBpos : ∀ t ∈ allTB, 0 < t)
    (allHY : List Nat) (target maxPages ovTokHY : Nat) (hHYne : allHY ≠ [])
    (hHYpos : ∀ t ∈ allHY, 0 < t) (hmp : 10 < maxPages) :
    calculatorsCoverageClaim (calculate_chunks_fixed_pages total chunkSize ovPages)
      (calculate_chunks_token_based allTB maxTok ovTokTB)
      (calculate_chunks_hybrid allHY target maxPages ovTokHY)
      total allTB.length allHY.length :=
  ⟨fixed_pages_coverage total chunkSize ovPages htot hcs,
   token_based_coverage allTB maxTok ovTokTB hTBne hTBpos,
   hybrid_coverage allHY target maxPages ovTokHY hHYne hHYpos hmp⟩

/-- Witness for C3 at concrete configurations. -/
theorem calculators_cover_all_pages_witness :
    calculatorsCoverageClaim (calculate_chunks_fixed_pages 5 2 1)
      (calculate_chunks_token_based [5, 5, 5] 7 0)
      (calculate_chunks_hybrid [1, 1, 1] 1 11 5) 5 3 3 :=
  calculators_cover_all_pages 5 2 1 (by decide) (by decide) [5, 5, 5] 7 0
    (by decide) (by decide) [1, 1, 1] 1 11 5 (by decide) (by decide) (by decide)

/-- C3 counterexample: on the non-empty input `[0]` (one page with zero
tokens) and valid configuration, the token-based calculator emits no boundary
at all, so page 0 is not covered by any boundary. -/
theorem coverage_counterexample :
    calculate_chunks_token_based [0] 10 0 = [] ∧
    ¬ rangesCover ((calculate_chunks_token_based [0] 10 0).map tbRange) 1 := by
  constructor
  · decide
  · intro h
    obtain ⟨r, hr, _⟩ := h 0 (by omega)
    rw [show calculate_chunks_token_based [0] 10 0 = [] from by decide] at hr
    simp at hr

end Blueprints

